import Mathlib

/-!
# Verification of the `looper` agent runtime core

A shallow embedding of the core of the `looper` repository (an LLM-driven
agent runtime written in Go) together with proofs about it.  The embedding
covers:

* the sandboxed executor (`pkg/sandbox`): deny-list filtering, output
  capping, environment construction, timeout/exit-code reporting and the
  Python REPL-style script wrapper;
* the agent loop (`pkg/agent`): the iteration-limited tool-call loop, local
  recovery from tool-level errors, and the conversation context;
* the provider stream adapters (`pkg/llm`): the OpenAI and Anthropic
  SSE-to-`StreamEvent` translation loops.

Go machine integers (`int`, `int64`) are modelled as `Int`; byte slices as
`List Nat` (each element `< 256`); Go strings as Lean `String`.  External
effects (the spawned process, the parent environment, temp-file creation,
context deadlines) are supplied through explicit "world" records, so every
definition is an executable function of its inputs.
-/

set_option autoImplicit false

namespace Looper

/-! ## Character and string helpers

These model the concrete Go standard-library calls made by the source
(`strings.ToLower`, `regexp \s+` replacement, `strings.TrimSpace`,
`strings.Contains`, `strings.HasPrefix`, `strings.Join`). -/

/-- The RE2 character class `\s` used by `regexp.MustCompile("\\s+")`
in `checkBlacklist`: `[\t\n\f\r ]`. -/
def goIsSpaceRE (c : Char) : Bool :=
  c = ' ' || c = '\t' || c = '\n' || c = '\x0c' || c = '\r'

/-- `unicode.IsSpace` on the Latin-1 range, as used by `strings.TrimSpace`:
`\t \n \v \f \r space NEL NBSP`. -/
def goIsSpaceUnicode (c : Char) : Bool :=
  c = ' ' || c = '\t' || c = '\n' || c = '\x0b' || c = '\x0c' || c = '\r' ||
  c = '\x85' || c = '\xa0'

/-- Replace every maximal run of `\s` characters by a single space: the
effect of `regexp.MustCompile("\\s+").ReplaceAllString(s, " ")`.  The flag
records whether we are inside a whitespace run. -/
def collapseWSAux : Bool → List Char → List Char
  | _, [] => []
  | inRun, c :: rest =>
    if goIsSpaceRE c then
      if inRun then collapseWSAux true rest
      else ' ' :: collapseWSAux true rest
    else c :: collapseWSAux false rest

def collapseWS (l : List Char) : List Char := collapseWSAux false l

/-- `strings.TrimSpace`. -/
def goTrimSpace (s : String) : String :=
  String.mk (((s.data.dropWhile goIsSpaceUnicode).reverse.dropWhile
    goIsSpaceUnicode).reverse)

/-- `sub` occurs as a contiguous sublist of `l`. -/
def containsList {α : Type} [DecidableEq α] (l sub : List α) : Bool :=
  (List.range (l.length + 1)).any fun i => sub.isPrefixOf (l.drop i)

/-- `strings.Contains s sub`. -/
def containsSub (s sub : String) : Bool := containsList s.data sub.data

/-- `strings.HasPrefix s pre`. -/
def hasPrefixGo (s pre : String) : Bool := pre.data.isPrefixOf s.data

/-- `strings.Join args " "`. -/
def joinSpace (args : List String) : String := String.intercalate " " args

/-! ## Deny-list matching (`ProcessSandbox.checkBlacklist`)

The Go code lower-cases the input, collapses its whitespace, and then, for
each pattern: lower-cases it, `regexp.QuoteMeta`s it, turns every quoted
`\*` back into `.*` and matches the resulting regular expression against
the normalized input with `MatchString` (unanchored).  Since the pattern is
`QuoteMeta`d, every character except the original `*`s is matched
literally, so the regular expression is exactly: the pattern's `*`-separated
segments must occur in the input, in order, with arbitrary gaps.  (`.` does
not match `\n` in RE2, but the normalized input contains no `\n`.)
`regexp.Compile` cannot fail on a `QuoteMeta`d pattern, so the
substring-containment fallback in the source is unreachable. -/

/-- Split a character list at every `'*'` (the glob wildcard). -/
def splitOnStar : List Char → List (List Char)
  | [] => [[]]
  | c :: rest =>
    if c = '*' then [] :: splitOnStar rest
    else
      match splitOnStar rest with
      | [] => [[c]]
      | s :: ss => (c :: s) :: ss

/-- Unanchored matching of the `*`-separated `segs` against `input`:
each segment occurs in `input`, in order, with arbitrary gaps. -/
def globMatch : List (List Char) → List Char → Bool
  | [], _ => true
  | seg :: rest, input =>
    (List.range (input.length + 1)).any fun i =>
      seg.isPrefixOf (input.drop i) && globMatch rest (input.drop (i + seg.length))

/-- The input normalization done by `checkBlacklist`: lower-case, then
collapse whitespace runs to single spaces. -/
def normalizeInput (s : String) : String :=
  String.mk (collapseWS (s.data.map Char.toLower))

/-- One pattern of the deny-list against an already-normalized input.
The pattern itself is only lower-cased (`normalizedPattern` in the source),
not whitespace-normalized. -/
def matchesBlacklistPattern (pattern input : String) : Bool :=
  globMatch (splitOnStar (pattern.data.map Char.toLower)) input.data

/-- `ProcessSandbox.checkBlacklist`: `none` when execution may proceed,
`some p` for the first pattern `p` that matched (the source returns an
error naming that pattern).  An empty deny-list disables the check. -/
def checkBlacklist (blacklist : List String) (input : String) : Option String :=
  if blacklist.isEmpty then none
  else blacklist.find? fun p => matchesBlacklistPattern p (normalizeInput input)

/-- The deny-list matcher as claim C1 words it: the pattern is lower-cased
AND whitespace-normalized before matching.  (The source normalizes the
whitespace of the input only.)  Used to exhibit the divergence. -/
def claimC1MatchesPattern (pattern input : String) : Bool :=
  globMatch (splitOnStar (normalizeInput pattern).data) (normalizeInput input).data

/-! ## Sandbox data model (`pkg/sandbox/sandbox.go`) -/

/-- `sandbox.Config`.  Durations and sizes are Go `time.Duration` (an
`int64` of nanoseconds) and `int64`, modelled as `Int`. -/
structure SandboxConfig where
  workingDir : String
  timeoutNanos : Int
  allowedEnv : List String
  customEnv : List (String × String)
  maxOutputBytes : Int
  commandBlacklist : List String
  deriving DecidableEq

/-- `sandbox.ExecutionResult`.  `stdout`/`stderr` are captured byte
buffers; `duration` is wall-clock nanoseconds. -/
structure ExecutionResult where
  stdout : List Nat
  stderr : List Nat
  exitCode : Int
  duration : Nat
  timedOut : Bool
  deriving DecidableEq

/-- The errors `ProcessSandbox` can return to its caller. -/
inductive SandboxError where
  /-- `ErrBlacklistedCommand`, wrapped with the matching pattern. -/
  | blacklistViolation (pattern : String)
  /-- `filepath.Abs(s.config.WorkingDir)` failed. -/
  | invalidWorkingDir
  /-- `cmd.Run` failed with a non-`ExitError` error (process never ran). -/
  | startFailure
  /-- `os.CreateTemp` / `WriteString` failed in `ExecuteScript`. -/
  | tempFileFailure
  deriving DecidableEq

/-- What the external world does during one sandbox invocation: whether the
working directory resolves, the parent process environment, the byte chunks
the child writes to each stream, how `cmd.Run` ends, and whether the
context deadline fired.  `runErr = some (.exit c)` is an `*exec.ExitError`
with exit code `c`; `some .startFailure` is any other `cmd.Run` error. -/
inductive RunError where
  | exit (code : Int)
  | startFailure
  deriving DecidableEq

structure ProcessWorld where
  absWorkDirOk : Bool
  parentEnv : List (String × String)
  stdoutChunks : List (List Nat)
  stderrChunks : List (List Nat)
  durationNanos : Nat
  deadlineExceeded : Bool
  runErr : Option RunError
  tmpFileOk : Bool
  deriving DecidableEq

/-! ## Output capping (`limitedWriter`) -/

/-- `limitedWriter`: wraps a `bytes.Buffer` (`buf`) and discards bytes past
`limit`. -/
structure limitedWriter where
  limit : Int
  written : Int
  buf : List Nat
  deriving DecidableEq

/-- `limitedWriter.Write`.  Returns the new writer state, the byte count
reported to the caller, and the error reported to the caller.  The
underlying `bytes.Buffer.Write` always succeeds, writing everything it is
given; the reported count is always the FULL input length ("to avoid
breaking callers"), and the reported error is always `none`. -/
def limitedWriter.write (lw : limitedWriter) (p : List Nat) :
    limitedWriter × Nat × Option String :=
  if lw.written ≥ lw.limit then (lw, p.length, none)
  else
    let remaining := lw.limit - lw.written
    let q := if (p.length : Int) > remaining then p.take remaining.toNat else p
    ({ lw with buf := lw.buf ++ q, written := lw.written + q.length },
     p.length, none)

/-- Fold a sequence of child writes through a fresh `limitedWriter` with
the given limit and return the captured buffer (what `runCommand` reads
back out of the `bytes.Buffer`). -/
def captureStream (limit : Int) (chunks : List (List Nat)) : List Nat :=
  (chunks.foldl (fun (lw : limitedWriter) p => (lw.write p).1)
    { limit := limit, written := 0, buf := [] }).buf

/-! ## Child environment (`ProcessSandbox.buildEnvironment`) -/

/-- `os.LookupEnv` against the modelled parent environment (first binding
wins). -/
def lookupEnv (parent : List (String × String)) (key : String) : Option String :=
  (parent.find? fun kv => kv.1 = key).map (·.2)

def defaultPathEntry : String := "PATH=/usr/local/bin:/usr/bin:/bin"

/-- `ProcessSandbox.buildEnvironment`: copy the allow-listed variables
that exist in the parent, append the custom overrides, then append a
default `PATH` unless some entry already starts with `"PATH="`. -/
def buildEnvironment (cfg : SandboxConfig) (parent : List (String × String)) :
    List String :=
  let env := cfg.allowedEnv.filterMap fun key =>
    (lookupEnv parent key).map fun val => key ++ "=" ++ val
  let env := env ++ cfg.customEnv.map fun kv => kv.1 ++ "=" ++ kv.2
  if env.any (fun e => hasPrefixGo e "PATH=") then env
  else env ++ [defaultPathEntry]

/-! ## Running a prepared command (`ProcessSandbox.runCommand`)

Returns the caller-visible result and whether a child process was actually
spawned.  Mirrors the source order: resolve the working directory, run with
capped capture, check the deadline first (a timeout is a normal result with
exit code `-1`), then map an `ExitError` to the result's exit code and any
other error to an infrastructure failure. -/

def runCommand (cfg : SandboxConfig) (w : ProcessWorld) :
    Except SandboxError ExecutionResult × Bool :=
  if ¬ w.absWorkDirOk then (.error .invalidWorkingDir, false)
  else
    let base : ExecutionResult :=
      { stdout := captureStream cfg.maxOutputBytes w.stdoutChunks
        stderr := captureStream cfg.maxOutputBytes w.stderrChunks
        exitCode := 0
        duration := w.durationNanos
        timedOut := false }
    if w.deadlineExceeded then
      (.ok { base with timedOut := true, exitCode := -1 }, true)
    else
      match w.runErr with
      | none => (.ok base, true)
      | some (.exit code) => (.ok { base with exitCode := code }, true)
      | some .startFailure => (.error .startFailure, false)

/-! ## Python REPL wrapping (`wrapPythonScript`) -/

/-- The substrings whose presence in the trimmed script suppresses
wrapping (the source's chain of `strings.Contains` checks). -/
def pythonWrapMarkers : List String :=
  ["print(", "print ", "import ", "def ", "class ", "if ", "for ",
   "while ", "with ", "try:"]

/-- UTF-8 encoding of one character (what Go's `[]byte(script)` contains). -/
def charUTF8 (c : Char) : List Nat :=
  let n := c.toNat
  if n < 0x80 then [n]
  else if n < 0x800 then [0xc0 + n / 64, 0x80 + n % 64]
  else if n < 0x10000 then
    [0xe0 + n / 4096, 0x80 + (n / 64) % 64, 0x80 + n % 64]
  else
    [0xf0 + n / 262144, 0x80 + (n / 4096) % 64, 0x80 + (n / 64) % 64,
     0x80 + n % 64]

/-- The bytes of a Go string (`[]byte(s)`). -/
def stringBytes (s : String) : List Nat := (s.data.map charUTF8).flatten

/-- The standard base64 alphabet used by `base64.StdEncoding`. -/
def base64Alphabet : List Char :=
  "ABCDEFGHIJKLMNOPQRSTUVWXYZabcdefghijklmnopqrstuvwxyz0123456789+/".data

def base64CharOf (n : Nat) : Char := base64Alphabet.getD n 'A'

/-- `base64.StdEncoding.EncodeToString` on a byte list (with padding). -/
def base64Encode : List Nat → List Char
  | [] => []
  | [b0] => [base64CharOf (b0 / 4), base64CharOf (b0 % 4 * 16), '=', '=']
  | [b0, b1] =>
    [base64CharOf (b0 / 4), base64CharOf (b0 % 4 * 16 + b1 / 16),
     base64CharOf (b1 % 16 * 4), '=']
  | b0 :: b1 :: b2 :: rest =>
    base64CharOf (b0 / 4) :: base64CharOf (b0 % 4 * 16 + b1 / 16) ::
    base64CharOf (b1 % 16 * 4 + b2 / 64) :: base64CharOf (b2 % 64) ::
    base64Encode rest

def base64EncodeString (s : String) : String :=
  String.mk (base64Encode (stringBytes s))

/-- Index of a character in the base64 alphabet (spec-side decoder). -/
def base64IndexOf (c : Char) : Option Nat := base64Alphabet.indexOf? c

/-- Spec-side base64 decoder (what Python's `base64.b64decode` computes on
well-formed input); used to state that the wrapper's payload decodes back
to the original script bytes. -/
def base64Decode : List Char → Option (List Nat)
  | [] => some []
  | c0 :: c1 :: c2 :: c3 :: rest =>
    if c2 = '=' ∧ c3 = '=' ∧ rest = [] then
      (base64IndexOf c0).bind fun s0 =>
      (base64IndexOf c1).map fun s1 => [s0 * 4 + s1 / 16]
    else if c3 = '=' ∧ rest = [] then
      (base64IndexOf c0).bind fun s0 =>
      (base64IndexOf c1).bind fun s1 =>
      (base64IndexOf c2).map fun s2 =>
        [s0 * 4 + s1 / 16, s1 % 16 * 16 + s2 / 4]
    else
      (base64IndexOf c0).bind fun s0 =>
      (base64IndexOf c1).bind fun s1 =>
      (base64IndexOf c2).bind fun s2 =>
      (base64IndexOf c3).bind fun s3 =>
      (base64Decode rest).map fun bs =>
        (s0 * 4 + s1 / 16) :: (s1 % 16 * 16 + s2 / 4) ::
        (s2 % 4 * 64 + s3) :: bs
  | _ => none

/-- The wrapper text built by `fmt.Sprintf` in `wrapPythonScript`, with the
base64-encoded source spliced in. -/
def pythonWrapper (encoded : String) : String :=
  "import base64\n_code = base64.b64decode(\"" ++ encoded ++
  "\").decode(\"utf-8\")\ntry:\n    _result = eval(compile(_code, \x27<input>\x27, \x27eval\x27))\n    if _result is not None:\n        print(repr(_result))\nexcept SyntaxError:\n    exec(compile(_code, \x27<input>\x27, \x27exec\x27))\n"

/-- `wrapPythonScript`: pass the script through unmodified when its
trimmed text contains any marker substring; otherwise replace it by the
REPL-style wrapper around the base64 encoding of the original source. -/
def wrapPythonScript (script : String) : String :=
  let trimmed := goTrimSpace script
  if pythonWrapMarkers.any (fun m => containsSub trimmed m) then script
  else pythonWrapper (base64EncodeString script)

/-! ## `Execute` and `ExecuteScript` -/

deriving instance DecidableEq for Except

/-- The observable outcome of one sandbox invocation: the returned value,
whether a child process was spawned, which strings were checked against
the deny-list, and the script text written to the temp file (if any). -/
structure ExecOutcome where
  result : Except SandboxError ExecutionResult
  spawned : Bool
  checkedInputs : List String
  scriptWritten : Option String
  deriving DecidableEq

/-- `ProcessSandbox.Execute`: deny-list check on `command ++ " " ++
strings.Join(args, " ")`, then run. -/
def Execute (cfg : SandboxConfig) (w : ProcessWorld) (command : String)
    (args : List String) : ExecOutcome :=
  let fullCommand := command ++ " " ++ joinSpace args
  match checkBlacklist cfg.commandBlacklist fullCommand with
  | some p =>
    { result := .error (.blacklistViolation p), spawned := false,
      checkedInputs := [fullCommand], scriptWritten := none }
  | none =>
    let (res, sp) := runCommand cfg w
    { result := res, spawned := sp, checkedInputs := [fullCommand],
      scriptWritten := none }

/-- `ProcessSandbox.ExecuteScript`: deny-list check on the ORIGINAL script
text, then (for Python) REPL-wrapping, temp-file creation, and the run.
The wrapper text is never passed to the deny-list check. -/
def ExecuteScript (cfg : SandboxConfig) (w : ProcessWorld)
    (interpreter script : String) : ExecOutcome :=
  match checkBlacklist cfg.commandBlacklist script with
  | some p =>
    { result := .error (.blacklistViolation p), spawned := false,
      checkedInputs := [script], scriptWritten := none }
  | none =>
    let finalScript :=
      if interpreter = "python" ∨ interpreter = "python3" then
        wrapPythonScript script
      else script
    if ¬ w.tmpFileOk then
      { result := .error .tempFileFailure, spawned := false,
        checkedInputs := [script], scriptWritten := none }
    else
      let (res, sp) := runCommand cfg w
      { result := res, spawned := sp, checkedInputs := [script],
        scriptWritten := some finalScript }

/-! ## LLM data model (`pkg/llm/types.go`) -/

inductive Role where
  | system
  | user
  | assistant
  | tool
  deriving DecidableEq

/-- `llm.ToolCall`.  `arguments` is the raw JSON payload
(`json.RawMessage`), kept as a string. -/
structure ToolCall where
  id : String
  name : String
  arguments : String
  deriving DecidableEq

/-- `llm.Message`. -/
structure Message where
  role : Role
  content : String := ""
  toolCalls : List ToolCall := []
  toolCallId : String := ""
  deriving DecidableEq

def NewUserMessage (content : String) : Message :=
  { role := .user, content := content }

def NewAssistantMessage (content : String) : Message :=
  { role := .assistant, content := content }

def NewToolResultMessage (toolCallId content : String) : Message :=
  { role := .tool, content := content, toolCallId := toolCallId }

def NewAssistantToolCallMessage (toolCalls : List ToolCall) : Message :=
  { role := .assistant, toolCalls := toolCalls }

/-- `llm.Usage`. -/
structure Usage where
  inputTokens : Int
  outputTokens : Int
  deriving DecidableEq

/-- `llm.Response`. -/
structure LLMResponse where
  content : String
  toolCalls : List ToolCall
  stopReason : String
  usage : Usage
  deriving DecidableEq

/-- `llm.ToolDefinition`.  The JSON-Schema parameter document is opaque to
the loop, so only the identifying fields are modelled. -/
structure ToolDefinition where
  name : String
  description : String
  deriving DecidableEq

/-- `llm.CompletionRequest`. -/
structure CompletionRequest where
  model : String
  messages : List Message
  tools : List ToolDefinition
  maxTokens : Int
  system : String
  deriving DecidableEq

/-! ## Skills and the conversation context (`pkg/agent/context.go`) -/

/-- `skills.Skill`. -/
structure Skill where
  name : String
  description : String
  content : String
  filePath : String
  deriving DecidableEq

/-- `Skill.ToPrompt`: the name + path + one-line-description reference
rendered into the system prompt. -/
def Skill.ToPrompt (s : Skill) : String :=
  "- **" ++ s.name ++ "** (`" ++ s.filePath ++ "`): " ++ s.description

/-- `agent.Context`.  `LoadedSkills` and `Metadata` are Go maps; they are
modelled as insertion-ordered association lists.  The metadata value type
(`interface{}` in Go) is a parameter `μ`. -/
structure AgentContext (μ : Type) where
  messages : List Message
  loadedSkills : List (String × Skill)
  workspacePath : String
  metadata : List (String × μ)
  totalInputTokens : Int
  totalOutputTokens : Int
  iterationCount : Int
  deriving DecidableEq

/-- `agent.NewContext`. -/
def NewContext (μ : Type) (workspacePath : String) : AgentContext μ :=
  { messages := [], loadedSkills := [], workspacePath := workspacePath,
    metadata := [], totalInputTokens := 0, totalOutputTokens := 0,
    iterationCount := 0 }

namespace AgentContext

variable {μ : Type}

/-- `Context.AddMessage`. -/
def AddMessage (c : AgentContext μ) (msg : Message) : AgentContext μ :=
  { c with messages := c.messages ++ [msg] }

/-- `Context.AddToolResult`. -/
def AddToolResult (c : AgentContext μ) (toolCallId content : String) :
    AgentContext μ :=
  c.AddMessage (NewToolResultMessage toolCallId content)

/-- `Context.GetSkillPrompt`: the skill reference block appended to the
system prompt (name, description, file path only). -/
def GetSkillPrompt (c : AgentContext μ) : String :=
  if c.loadedSkills.isEmpty then ""
  else
    c.loadedSkills.foldl
      (fun acc kv => acc ++ kv.2.ToPrompt ++ "\n")
      ("\n\n## Available Skills\nUse `read_file` to view full skill instructions when needed:\n\n")

/-- `Context.UpdateUsage`. -/
def UpdateUsage (c : AgentContext μ) (usage : Usage) : AgentContext μ :=
  { c with totalInputTokens := c.totalInputTokens + usage.inputTokens,
           totalOutputTokens := c.totalOutputTokens + usage.outputTokens }

/-- `Context.Clear`: reset the conversation history and iteration counter,
leaving every other field alone. -/
def Clear (c : AgentContext μ) : AgentContext μ :=
  { c with messages := [], iterationCount := 0 }

end AgentContext

/-! ## Tool dispatch and the agent loop (`pkg/agent/agent.go`)

The provider, the JSON argument parser and cancellation are external
effects, supplied through an `AgentWorld`.  `Args` is the parsed-argument
document type (`map[string]interface{}` in Go). -/

/-- A registered tool as the loop sees it (`tools.Tool`): name,
description, and an `Execute` on parsed arguments. -/
structure AgentTool (Args : Type) where
  name : String
  description : String
  run : Args → Except String String

/-- `tools.ToDefinition`. -/
def ToDefinition {Args : Type} (t : AgentTool Args) : ToolDefinition :=
  { name := t.name, description := t.description }

/-- Modelled from the spec: the tool registry's `Get(name) -> tool |
not-found` (§4.3 Tool Dispatch).  The registry implementation file is not
among the provided sources, only its callers; per the spec `Get` resolves a
name to the registered tool or reports not-found. -/
def registryGet {Args : Type} (registry : List (AgentTool Args))
    (name : String) : Option (AgentTool Args) :=
  registry.find? fun t => t.name = name

/-- The external collaborators of one `Agent.Run` call. -/
structure AgentWorld (Args : Type) where
  /-- `a.provider.Complete`. -/
  provider : CompletionRequest → Except String LLMResponse
  /-- `json.Unmarshal(tc.Arguments, &args)`. -/
  parseArgs : String → Except String Args
  /-- The registered tools (`a.registry`), in registration order. -/
  registry : List (AgentTool Args)
  /-- Whether `ctx.Done()` fires at the top of the given iteration. -/
  cancelled : Int → Bool

/-- `agent.Config` (the fields `Run` reads). -/
structure AgentConfig where
  model : String
  systemPrompt : String
  maxIterations : Int
  maxTokens : Int
  deriving DecidableEq

/-- Errors that abort `Agent.Run`. -/
inductive AgentError where
  | maxIterations (limit : Int)
  | cancelled
  | llmError (msg : String)
  deriving DecidableEq

/-- `Agent.executeTool`: resolve the tool by name, parse the JSON
arguments, run the tool. -/
def executeTool {Args : Type} (w : AgentWorld Args) (tc : ToolCall) :
    Except String String :=
  match registryGet w.registry tc.name with
  | none => .error ("unknown tool: " ++ tc.name)
  | some t =>
    match w.parseArgs tc.arguments with
    | .error e => .error ("invalid arguments: " ++ e)
    | .ok args => t.run args

/-- The tool-result messages appended for one batch of tool calls,
executed sequentially: each call's result, or `"Error: <message>"` when it
fails, correlated by the call's id. -/
def toolResultsFor {Args : Type} (w : AgentWorld Args)
    (tcs : List ToolCall) : List Message :=
  tcs.map fun tc =>
    match executeTool w tc with
    | .ok result => NewToolResultMessage tc.id result
    | .error e => NewToolResultMessage tc.id ("Error: " ++ e)

/-- The loop state: the conversation context plus a count of completion
requests issued so far (observable through the provider). -/
structure AgentState (μ Args : Type) where
  ctx : AgentContext μ
  requests : Nat
  deriving DecidableEq

/-- The completion request built at the top of each iteration. -/
def buildRequest {μ Args : Type} (cfg : AgentConfig) (w : AgentWorld Args)
    (c : AgentContext μ) : CompletionRequest :=
  { model := cfg.model
    messages := c.messages
    tools := w.registry.map ToDefinition
    maxTokens := cfg.maxTokens
    system := cfg.systemPrompt ++ c.GetSkillPrompt }

/-- The outcome of one pass through the body of `Agent.Run`'s `for` loop. -/
inductive StepResult (μ Args : Type) where
  /-- The `continue` branch: tool calls were executed, loop again. -/
  | next (st : AgentState μ Args)
  /-- The final-answer branch: `return resp.Content, nil`. -/
  | finished (answer : String) (st : AgentState μ Args)
  /-- One of the `return "", err` branches. -/
  | fatal (e : AgentError) (st : AgentState μ Args)
  deriving DecidableEq

def StepResult.state {μ Args : Type} : StepResult μ Args → AgentState μ Args
  | .next st => st
  | .finished _ st => st
  | .fatal _ st => st

/-- One pass through the body of `Agent.Run`'s loop: iteration-limit
check, increment, cancellation check, completion request, then either
tool execution (continue) or the final answer. -/
def runIteration {μ Args : Type} (cfg : AgentConfig) (w : AgentWorld Args)
    (st : AgentState μ Args) : StepResult μ Args :=
  if 0 < cfg.maxIterations ∧ cfg.maxIterations ≤ st.ctx.iterationCount then
    .fatal (.maxIterations cfg.maxIterations) st
  else
    let st : AgentState μ Args :=
      { st with ctx := { st.ctx with iterationCount := st.ctx.iterationCount + 1 } }
    if w.cancelled st.ctx.iterationCount then .fatal .cancelled st
    else
      let req := buildRequest cfg w st.ctx
      let st : AgentState μ Args := { st with requests := st.requests + 1 }
      match w.provider req with
      | .error e => .fatal (.llmError ("LLM error: " ++ e)) st
      | .ok resp =>
        let st : AgentState μ Args := { st with ctx := st.ctx.UpdateUsage resp.usage }
        if resp.toolCalls.isEmpty then
          let st : AgentState μ Args :=
            if resp.content ≠ "" then
              { st with ctx := st.ctx.AddMessage (NewAssistantMessage resp.content) }
            else st
          .finished resp.content st
        else
          let st : AgentState μ Args :=
            { st with ctx := st.ctx.AddMessage (NewAssistantToolCallMessage resp.toolCalls) }
          let st : AgentState μ Args :=
            { st with ctx := { st.ctx with
                messages := st.ctx.messages ++ toolResultsFor w resp.toolCalls } }
          .next st

/-- The result of `Agent.Run`.  `outOfFuel` marks that the modelled fuel
was exhausted before the Go loop (which has no such bound) terminated. -/
inductive RunResult (μ Args : Type) where
  | answer (content : String) (st : AgentState μ Args)
  | failure (e : AgentError) (st : AgentState μ Args)
  | outOfFuel (st : AgentState μ Args)
  deriving DecidableEq

def RunResult.state {μ Args : Type} : RunResult μ Args → AgentState μ Args
  | .answer _ st => st
  | .failure _ st => st
  | .outOfFuel st => st

/-- `Agent.Run`'s `for` loop, fuel-indexed. -/
def runLoop {μ Args : Type} (cfg : AgentConfig) (w : AgentWorld Args) :
    Nat → AgentState μ Args → RunResult μ Args
  | 0, st => .outOfFuel st
  | fuel + 1, st =>
    match runIteration cfg w st with
    | .next st' => runLoop cfg w fuel st'
    | .finished answer st' => .answer answer st'
    | .fatal e st' => .failure e st'

/-- `Agent.Run`: append the user message, then drive the loop. -/
def Run {μ Args : Type} (cfg : AgentConfig) (w : AgentWorld Args)
    (fuel : Nat) (c : AgentContext μ) (userMessage : String) : RunResult μ Args :=
  runLoop cfg w fuel
    { ctx := c.AddMessage (NewUserMessage userMessage), requests := 0 }

/-! ## Streaming event model (`pkg/llm/openai.go`, `anthropic.go`)

The two adapters translate wire-format deltas into `llm.StreamEvent`s.
The wire input is modelled as the list of parsed chunk payloads in arrival
order (transport framing, keep-alives and unparsable lines are skipped by
the source before this logic runs).  Go's `map[int]...` accumulators are
modelled as insertion-ordered association lists; the finalization loop that
iterates a Go map is modelled in insertion order (the claims proved here
are per-index, so the order is immaterial). -/

/-- `llm.StreamEvent` (the payload-carrying shape of the tagged union). -/
inductive SEvent where
  | text (s : String)
  | toolCallStart (index : Nat) (call : ToolCall)
  | toolCallDelta (index : Nat) (argumentDelta : String)
  | toolCallEnd (index : Nat) (call : ToolCall)
  | done (usage : Usage) (stopReason : String)
  deriving DecidableEq

/-- Concatenation, in delivery order, of the `ArgumentDelta` fragments
emitted as `ToolCallDelta` events for one index. -/
def deltaConcat (idx : Nat) : List SEvent → String
  | [] => ""
  | e :: rest =>
    (match e with
     | .toolCallDelta i s => if i = idx then s else ""
     | _ => "") ++ deltaConcat idx rest

/-- Association-list update: replace the binding of `k` in place, or
append a new one (Go map assignment). -/
def setAssoc {α : Type} : List (Nat × α) → Nat → α → List (Nat × α)
  | [], k, v => [(k, v)]
  | p :: rest, k, v =>
    if p.1 = k then (k, v) :: rest else p :: setAssoc rest k v

/-- Association-list lookup (Go map read). -/
def getAssoc {α : Type} : List (Nat × α) → Nat → Option α
  | [], _ => none
  | p :: rest, k => if p.1 = k then some p.2 else getAssoc rest k

/-! ### OpenAI adapter (`OpenAIProvider.CompleteStream`) -/

/-- One entry of `choice.Delta.ToolCalls` in an OpenAI stream chunk. -/
structure OAToolCallDelta where
  index : Nat
  id : String
  name : String
  argumentsDelta : String
  deriving DecidableEq

/-- The per-chunk payloads the OpenAI consumer loop reacts to, flattened
in arrival order: a content fragment, one tool-call delta entry, a finish
reason, or a usage record. -/
inductive OAWireDelta where
  | content (text : String)
  | toolCall (d : OAToolCallDelta)
  | finish (reason : String)
  | usage (inputTokens outputTokens : Int)
  deriving DecidableEq

/-- The accumulator state of the OpenAI consumer loop. -/
structure OAState where
  toolCallStarted : List Nat
  toolCalls : List (Nat × ToolCall)
  toolCallArgs : List (Nat × String)
  stopReason : String
  inputTokens : Int
  outputTokens : Int

def OAState.initial : OAState :=
  { toolCallStarted := [], toolCalls := [], toolCallArgs := [],
    stopReason := "", inputTokens := 0, outputTokens := 0 }

/-- Processing of one `choice.Delta.ToolCalls` entry: possibly emit
`ToolCallStart` (first id/name sighting for the index) or merge id/name
metadata, then accumulate and emit the argument fragment. -/
def oaToolCallStep (st : OAState) (d : OAToolCallDelta) :
    OAState × List SEvent :=
  let (st, evs) :=
    if d.id ≠ "" ∨ d.name ≠ "" then
      if d.index ∈ st.toolCallStarted then
        ({ st with toolCalls := st.toolCalls.map fun p =>
            if p.1 = d.index then
              (p.1, { p.2 with
                id := if d.id ≠ "" then d.id else p.2.id,
                name := if d.name ≠ "" then d.name else p.2.name })
            else p }, [])
      else
        let tc : ToolCall := { id := d.id, name := d.name, arguments := "" }
        ({ st with
            toolCallStarted := st.toolCallStarted ++ [d.index],
            toolCalls := setAssoc st.toolCalls d.index tc,
            toolCallArgs := setAssoc st.toolCallArgs d.index "" },
         [SEvent.toolCallStart d.index tc])
    else (st, [])
  if d.argumentsDelta ≠ "" then
    let prev := (getAssoc st.toolCallArgs d.index).getD ""
    ({ st with toolCallArgs :=
        setAssoc st.toolCallArgs d.index (prev ++ d.argumentsDelta) },
     evs ++ [SEvent.toolCallDelta d.index d.argumentsDelta])
  else (st, evs)

/-- One wire chunk payload of the OpenAI stream. -/
def oaStep (st : OAState) (wd : OAWireDelta) : OAState × List SEvent :=
  match wd with
  | .content s => (st, if s ≠ "" then [SEvent.text s] else [])
  | .toolCall d => oaToolCallStep st d
  | .finish r => ({ st with stopReason := if r ≠ "" then r else st.stopReason }, [])
  | .usage i o => ({ st with inputTokens := i, outputTokens := o }, [])

/-- The consumer loop over all chunk payloads. -/
def oaProcess : List OAWireDelta → OAState → List SEvent × OAState
  | [], st => ([], st)
  | wd :: rest, st =>
    let (st', evs) := oaStep st wd
    let (evs', st'') := oaProcess rest st'
    (evs ++ evs', st'')

/-- The finalization after the wire ends: one `ToolCallEnd` per recorded
tool call carrying the accumulated arguments, then the `Done` event. -/
def oaFinalize (st : OAState) : List SEvent :=
  (st.toolCalls.map fun p =>
    SEvent.toolCallEnd p.1
      { p.2 with arguments := (getAssoc st.toolCallArgs p.1).getD "" })
  ++ [SEvent.done { inputTokens := st.inputTokens,
                    outputTokens := st.outputTokens } st.stopReason]

/-- `OpenAIProvider.CompleteStream`: the full event sequence delivered on
the channel for one request. -/
def oaCompleteStream (chunks : List OAWireDelta) : List SEvent :=
  let (evs, st) := oaProcess chunks OAState.initial
  evs ++ oaFinalize st

/-! ### Anthropic adapter (`AnthropicProvider.CompleteStream`) -/

/-- The SSE event payloads the Anthropic consumer loop reacts to. -/
inductive AnWireEvent where
  | messageStart (inputTokens : Int)
  | blockStartToolUse (index : Nat) (id name : String)
  | blockStartOther (index : Nat)
  | textDelta (index : Nat) (text : String)
  | inputJsonDelta (index : Nat) (pjson : String)
  | blockStop (index : Nat)
  | messageDelta (stopReason : String) (outputTokens : Option Int)
  | messageStop
  deriving DecidableEq

/-- The accumulator state of the Anthropic consumer loop. -/
structure AnState where
  toolCalls : List (Nat × ToolCall)
  toolCallArgs : List (Nat × String)
  stopReason : String
  inputTokens : Int
  outputTokens : Int

def AnState.initial : AnState :=
  { toolCalls := [], toolCallArgs := [], stopReason := "",
    inputTokens := 0, outputTokens := 0 }

def anDoneEvent (st : AnState) : SEvent :=
  .done { inputTokens := st.inputTokens, outputTokens := st.outputTokens }
    st.stopReason

def anStep (st : AnState) (e : AnWireEvent) : AnState × List SEvent :=
  match e with
  | .messageStart i => ({ st with inputTokens := i }, [])
  | .blockStartToolUse idx id name =>
    let tc : ToolCall := { id := id, name := name, arguments := "" }
    ({ st with toolCalls := setAssoc st.toolCalls idx tc,
               toolCallArgs := setAssoc st.toolCallArgs idx "" },
     [SEvent.toolCallStart idx tc])
  | .blockStartOther _ => (st, [])
  | .textDelta _ s => (st, if s ≠ "" then [SEvent.text s] else [])
  | .inputJsonDelta idx p =>
    if p ≠ "" then
      let prev := (getAssoc st.toolCallArgs idx).getD ""
      ({ st with toolCallArgs := setAssoc st.toolCallArgs idx (prev ++ p) },
       [SEvent.toolCallDelta idx p])
    else (st, [])
  | .blockStop idx =>
    match getAssoc st.toolCalls idx with
    | some tc =>
      (st, [SEvent.toolCallEnd idx
        { tc with arguments := (getAssoc st.toolCallArgs idx).getD "" }])
    | none => (st, [])
  | .messageDelta r o =>
    ({ st with stopReason := if r ≠ "" then r else st.stopReason,
               outputTokens := o.getD st.outputTokens }, [])
  | .messageStop => (st, [])

/-- The Anthropic consumer loop.  `message_stop` emits `Done` and returns
at once (later wire events are never read); reaching the end of the wire
without it also emits `Done`. -/
def anProcess : List AnWireEvent → AnState → List SEvent
  | [], st => [anDoneEvent st]
  | .messageStop :: _, st => [anDoneEvent st]
  | e :: rest, st =>
    let (st', evs) := anStep st e
    evs ++ anProcess rest st'

/-- `AnthropicProvider.CompleteStream`: the full event sequence delivered
on the channel for one request. -/
def anCompleteStream (events : List AnWireEvent) : List SEvent :=
  anProcess events AnState.initial

/-! ### Stream well-formedness

The delta-concatenation round-trip does not hold for arbitrary wire input:
both adapters reset an index's argument accumulator when they first see its
id/name (OpenAI) or its `content_block_start` (Anthropic), so argument
fragments that arrive BEFORE the start of their tool call are emitted as
`ToolCallDelta` events but dropped from the accumulated payload.  The
following predicates say that no fragment precedes its call's start (and,
for Anthropic, that no block starts twice or receives fragments after its
stop) — which every conforming backend stream satisfies. -/

/-- Well-formed OpenAI wire input, relative to the set of indices already
started: every non-empty argument fragment belongs to an index whose
id/name has already been seen (possibly in the same chunk entry). -/
def oaWF (started : List Nat) : List OAWireDelta → Prop
  | [] => True
  | wd :: rest =>
    match wd with
    | .toolCall d =>
      let started' :=
        if (d.id ≠ "" ∨ d.name ≠ "") ∧ d.index ∉ started then
          started ++ [d.index]
        else started
      (d.argumentsDelta ≠ "" → d.index ∈ started') ∧ oaWF started' rest
    | _ => oaWF started rest

/-- Well-formed Anthropic wire input, relative to the indices whose
`tool_use` block has started resp. stopped: a block starts at most once,
and every non-empty `input_json_delta` for an index comes after that
index's block start and before any of its block stops. -/
def anWF (started stopped : List Nat) : List AnWireEvent → Prop
  | [] => True
  | e :: rest =>
    match e with
    | .blockStartToolUse i _ _ => i ∉ started ∧ anWF (started ++ [i]) stopped rest
    | .inputJsonDelta i p =>
      (p ≠ "" → i ∈ started ∧ i ∉ stopped) ∧ anWF started stopped rest
    | .blockStop i => anWF started (stopped ++ [i]) rest
    | .messageStop => True
    | _ => anWF started stopped rest

/-- Invariant of the OpenAI consumer loop: every recorded call's index is
started, a started index's accumulator holds exactly the concatenation of
the fragments emitted for it so far, and an unstarted index has had no
fragments emitted. -/
def oaInv (st : OAState) (evs : List SEvent) : Prop :=
  (∀ p ∈ st.toolCalls, p.1 ∈ st.toolCallStarted) ∧
  (∀ i ∈ st.toolCallStarted,
    getAssoc st.toolCallArgs i = some (deltaConcat i evs)) ∧
  (∀ i, i ∉ st.toolCallStarted → deltaConcat i evs = "")

/-- The same invariant for the Anthropic consumer loop, with the started
set tracked alongside the state. -/
def anInv (st : AnState) (started : List Nat) (evs : List SEvent) : Prop :=
  (∀ p ∈ st.toolCalls, p.1 ∈ started) ∧
  (∀ i ∈ started,
    getAssoc st.toolCallArgs i = some (deltaConcat i evs)) ∧
  (∀ i, i ∉ started → deltaConcat i evs = "")

/-! # Theorems -/

/-! ## C9: `Context.Clear` frame conditions -/

/-- **C9.**  For every Conversation Context state, `Clear` empties the
message history and zeroes the iteration counter while leaving the loaded
skills, the workspace path, the metadata map, and the cumulative
input/output token counters at their prior values. -/
theorem context_clear_frame {μ : Type} (c : AgentContext μ) :
    c.Clear.messages = [] ∧
    c.Clear.iterationCount = 0 ∧
    c.Clear.loadedSkills = c.loadedSkills ∧
    c.Clear.workspacePath = c.workspacePath ∧
    c.Clear.metadata = c.metadata ∧
    c.Clear.totalInputTokens = c.totalInputTokens ∧
    c.Clear.totalOutputTokens = c.totalOutputTokens := by
  simp [AgentContext.Clear]

/-! ## C4: timeout and exit-code reporting -/

/-- **C4.**  When the deadline fires, `runCommand` returns a result with
`timedOut = true` and exit code `-1` and no error (even if `cmd.Run` also
reported an exit error); a non-zero child exit is reported only through the
result's exit code; an error is returned only when the working directory
cannot be resolved or the process could not be started. -/
theorem timeout_and_exit_code_reporting (cfg : SandboxConfig)
    (w : ProcessWorld) :
    (w.absWorkDirOk = true → w.deadlineExceeded = true →
      runCommand cfg w =
        (.ok { stdout := captureStream cfg.maxOutputBytes w.stdoutChunks,
               stderr := captureStream cfg.maxOutputBytes w.stderrChunks,
               exitCode := -1, duration := w.durationNanos,
               timedOut := true }, true)) ∧
    (w.absWorkDirOk = true → w.deadlineExceeded = false →
      ∀ code : Int, w.runErr = some (.exit code) →
      runCommand cfg w =
        (.ok { stdout := captureStream cfg.maxOutputBytes w.stdoutChunks,
               stderr := captureStream cfg.maxOutputBytes w.stderrChunks,
               exitCode := code, duration := w.durationNanos,
               timedOut := false }, true)) ∧
    (∀ e sp, runCommand cfg w = (.error e, sp) →
      w.absWorkDirOk = false ∨
      (w.deadlineExceeded = false ∧ w.runErr = some .startFailure)) := by
  refine ⟨fun hdir hdl => ?_, fun hdir hdl code hexit => ?_, fun e sp h => ?_⟩
  · simp [runCommand, hdir, hdl]
  · simp [runCommand, hdir, hdl, hexit]
  · by_cases hdir : w.absWorkDirOk
    · right
      by_cases hdl : w.deadlineExceeded
      · simp [runCommand, hdir, hdl] at h
      · rcases hre : w.runErr with _ | re
        · simp [runCommand, hdir, hdl, hre] at h
        · cases re with
          | exit code => simp [runCommand, hdir, hdl, hre] at h
          | startFailure => exact ⟨by simp [hdl], by simp [hre]⟩
    · left; simpa using hdir

/-- Witness for C4 at a concrete timed-out invocation. -/
theorem timeout_and_exit_code_reporting_witness :
    runCommand
      { workingDir := ".", timeoutNanos := 1, allowedEnv := [],
        customEnv := [], maxOutputBytes := 10, commandBlacklist := [] }
      { absWorkDirOk := true, parentEnv := [], stdoutChunks := [[104, 105]],
        stderrChunks := [], durationNanos := 42, deadlineExceeded := true,
        runErr := some (.exit 7), tmpFileOk := true } =
      (.ok { stdout := [104, 105], stderr := [], exitCode := -1,
             duration := 42, timedOut := true }, true) := by
  have h := (timeout_and_exit_code_reporting
    { workingDir := ".", timeoutNanos := 1, allowedEnv := [],
      customEnv := [], maxOutputBytes := 10, commandBlacklist := [] }
    { absWorkDirOk := true, parentEnv := [], stdoutChunks := [[104, 105]],
      stderrChunks := [], durationNanos := 42, deadlineExceeded := true,
      runErr := some (.exit 7), tmpFileOk := true }).1 rfl rfl
  rw [h]
  decide

/-! ## C10: the deny-list check precedes Python wrapping -/

/-- **C10.**  `ExecuteScript` checks the ORIGINAL script text against the
deny-list before any Python REPL wrapping: a matching script is rejected
with no spawn, no temp file, and the wrapper text is never among the
deny-list-checked strings; a non-matching Python script proceeds with the
wrapped text written to the temp file.  Concretely, the script
`"shutdown"` is rejected under the deny-list `["shutdown"]` although the
wrapper that would have run (holding only a base64 encoding of the source)
matches nothing. -/
theorem script_blacklist_checked_before_wrapping (cfg : SandboxConfig)
    (w : ProcessWorld) (script : String) :
    (∀ p, checkBlacklist cfg.commandBlacklist script = some p →
      ExecuteScript cfg w "python" script =
        { result := .error (.blacklistViolation p), spawned := false,
          checkedInputs := [script], scriptWritten := none }) ∧
    (checkBlacklist cfg.commandBlacklist script = none →
      (ExecuteScript cfg w "python" script).checkedInputs = [script] ∧
      (w.tmpFileOk = true →
        (ExecuteScript cfg w "python" script).scriptWritten =
          some (wrapPythonScript script))) ∧
    checkBlacklist ["shutdown"] "shutdown" = some "shutdown" ∧
    checkBlacklist ["shutdown"] (wrapPythonScript "shutdown") = none := by
  refine ⟨fun p hp => ?_, fun hn => ⟨?_, fun htmp => ?_⟩, by decide, ?_⟩
  · simp [ExecuteScript, hp]
  · by_cases htmp : w.tmpFileOk <;>
      simp [ExecuteScript, hn, htmp]
  · simp [ExecuteScript, hn, htmp]
  · set_option maxRecDepth 40000 in decide

/-- Witness for C10 at a concrete blocked script. -/
theorem script_blacklist_checked_before_wrapping_witness :
    ExecuteScript
      { workingDir := ".", timeoutNanos := 0, allowedEnv := [],
        customEnv := [], maxOutputBytes := 10,
        commandBlacklist := ["shutdown"] }
      { absWorkDirOk := true, parentEnv := [], stdoutChunks := [],
        stderrChunks := [], durationNanos := 0, deadlineExceeded := false,
        runErr := none, tmpFileOk := true }
      "python" "shutdown" =
      { result := .error (.blacklistViolation "shutdown"), spawned := false,
        checkedInputs := ["shutdown"], scriptWritten := none } :=
  (script_blacklist_checked_before_wrapping
    { workingDir := ".", timeoutNanos := 0, allowedEnv := [],
      customEnv := [], maxOutputBytes := 10,
      commandBlacklist := ["shutdown"] }
    { absWorkDirOk := true, parentEnv := [], stdoutChunks := [],
      stderrChunks := [], durationNanos := 0, deadlineExceeded := false,
      runErr := none, tmpFileOk := true }
    "shutdown").1 "shutdown" (by decide)

/-! ## C5: the output cap -/

/-- Folding writes through a `limitedWriter` captures exactly the first
`limit - written` outstanding bytes of the concatenated input. -/
theorem limitedWriter_foldl_buf (chunks : List (List Nat))
    (lw : limitedWriter) (h : (lw.written : Int) = lw.buf.length) :
    (chunks.foldl (fun lw p => (lw.write p).1) lw).buf
      = lw.buf ++ chunks.flatten.take (lw.limit - lw.written).toNat := by
  induction chunks generalizing lw with
  | nil => simp
  | cons p rest ih =>
    simp only [List.foldl_cons, List.flatten_cons]
    rw [limitedWriter.write]
    by_cases hfull : lw.written ≥ lw.limit
    · simp only [hfull, if_pos]
      rw [ih lw h]
      have h0 : (lw.limit - lw.written).toNat = 0 := by omega
      simp [h0]
    · simp only [hfull, if_neg, not_false_iff]
      by_cases hlong : (p.length : Int) > lw.limit - lw.written
      · simp only [hlong, if_pos]
        rw [ih]
        · have hlen : (p.take (lw.limit - lw.written).toNat).length
              = (lw.limit - lw.written).toNat := by
            rw [List.length_take]
            omega
          have hrem : (lw.limit - (lw.written +
              ((p.take (lw.limit - lw.written).toNat).length : Int))).toNat = 0 := by
            rw [hlen]; omega
          rw [hrem]
          have htake : (p ++ rest.flatten).take (lw.limit - lw.written).toNat
              = p.take (lw.limit - lw.written).toNat := by
            apply List.take_append_of_le_length
            omega
          simp [htake, List.append_assoc]
        · simp [h]
      · simp only [hlong, if_neg, not_false_iff]
        rw [ih]
        · have hrem : (lw.limit - lw.written).toNat
              = p.length + (lw.limit - (lw.written + (p.length : Int))).toNat := by
            omega
          rw [hrem, List.take_append]
          simp [List.append_assoc]
        · simp [h]

/-- Any successful `runCommand` result carries exactly the capped capture
of each stream. -/
theorem runCommand_ok_buffers (cfg : SandboxConfig) (w : ProcessWorld)
    (r : ExecutionResult) (sp : Bool) (h : runCommand cfg w = (.ok r, sp)) :
    r.stdout = captureStream cfg.maxOutputBytes w.stdoutChunks ∧
    r.stderr = captureStream cfg.maxOutputBytes w.stderrChunks := by
  by_cases hdir : w.absWorkDirOk
  · by_cases hdl : w.deadlineExceeded
    · have hrc : runCommand cfg w =
          (.ok { stdout := captureStream cfg.maxOutputBytes w.stdoutChunks,
                 stderr := captureStream cfg.maxOutputBytes w.stderrChunks,
                 exitCode := -1, duration := w.durationNanos,
                 timedOut := true }, true) := by
        simp [runCommand, hdir, hdl]
      rw [hrc, Prod.mk.injEq] at h
      obtain ⟨h1, -⟩ := h
      injection h1 with h1
      rw [← h1]
      exact ⟨rfl, rfl⟩
    · rcases hre : w.runErr with _ | re
      · have hrc : runCommand cfg w =
            (.ok { stdout := captureStream cfg.maxOutputBytes w.stdoutChunks,
                   stderr := captureStream cfg.maxOutputBytes w.stderrChunks,
                   exitCode := 0, duration := w.durationNanos,
                   timedOut := false }, true) := by
          simp [runCommand, hdir, hdl, hre]
        rw [hrc, Prod.mk.injEq] at h
        obtain ⟨h1, -⟩ := h
        injection h1 with h1
        rw [← h1]
        exact ⟨rfl, rfl⟩
      · cases re with
        | exit code =>
          have hrc : runCommand cfg w =
              (.ok { stdout := captureStream cfg.maxOutputBytes w.stdoutChunks,
                     stderr := captureStream cfg.maxOutputBytes w.stderrChunks,
                     exitCode := code, duration := w.durationNanos,
                     timedOut := false }, true) := by
            simp [runCommand, hdir, hdl, hre]
          rw [hrc, Prod.mk.injEq] at h
          obtain ⟨h1, -⟩ := h
          injection h1 with h1
          rw [← h1]
          exact ⟨rfl, rfl⟩
        | startFailure =>
          rw [runCommand] at h
          simp [hdir, hdl, hre] at h
  · rw [runCommand] at h
    simp [hdir] at h

/-- **C5.**  For every configured cap `N`: the captured buffer is exactly
the first `N` bytes of what the child wrote to that stream (stdout and
stderr independently, so in particular exactly `N` bytes once more than
`N` are produced and the excess is silently dropped); every `Write` call
reports the full input length as consumed and returns no error; and the
`runCommand` result carries exactly those capped buffers. -/
theorem output_cap_exact_and_transparent (N : Int)
    (chunks : List (List Nat)) (lw : limitedWriter) (p : List Nat) :
    captureStream N chunks = chunks.flatten.take N.toNat ∧
    (lw.write p).2.1 = p.length ∧
    (lw.write p).2.2 = none ∧
    (∀ cfg w r sp, runCommand cfg w = (.ok r, sp) →
      r.stdout = w.stdoutChunks.flatten.take cfg.maxOutputBytes.toNat ∧
      r.stderr = w.stderrChunks.flatten.take cfg.maxOutputBytes.toNat) := by
  refine ⟨?_, ?_, ?_, fun cfg w r sp h => ?_⟩
  · rw [captureStream, limitedWriter_foldl_buf]
    · simp
    · simp
  · rw [limitedWriter.write]
    by_cases hfull : lw.written ≥ lw.limit <;> simp [hfull]
  · rw [limitedWriter.write]
    by_cases hfull : lw.written ≥ lw.limit <;> simp [hfull]
  · have hcap : ∀ cs : List (List Nat),
        captureStream cfg.maxOutputBytes cs
          = cs.flatten.take cfg.maxOutputBytes.toNat := by
      intro cs
      rw [captureStream, limitedWriter_foldl_buf] <;> simp
    obtain ⟨h1, h2⟩ := runCommand_ok_buffers cfg w r sp h
    rw [h1, h2, hcap, hcap]
    exact ⟨rfl, rfl⟩

/-- Witness for C5: a 5-byte cap on 8 bytes of writes captures exactly the
first 5 bytes. -/
theorem output_cap_exact_and_transparent_witness :
    captureStream 5 [[1, 2, 3], [4, 5, 6], [7, 8]]
        = [[1, 2, 3], [4, 5, 6], [7, 8]].flatten.take (Int.toNat 5) ∧
    (limitedWriter.write { limit := 5, written := 3, buf := [1, 2, 3] }
        [4, 5, 6]).2.1 = 3 := by
  have h := output_cap_exact_and_transparent 5 [[1, 2, 3], [4, 5, 6], [7, 8]]
    { limit := 5, written := 3, buf := [1, 2, 3] } [4, 5, 6]
  exact ⟨h.1, h.2.1⟩

/-! ## C6: the child environment -/

theorem string_eq_of_data_eq {a b : String} (h : a.data = b.data) : a = b := by
  cases a; cases b; exact congrArg String.mk h

/-- Splitting a `key=value` character list at the first `'='` is
unambiguous when neither key contains `'='`. -/
theorem entry_split_unique {l1 r1 l2 r2 : List Char}
    (h1 : '=' ∉ l1) (h2 : '=' ∉ l2)
    (h : l1 ++ '=' :: r1 = l2 ++ '=' :: r2) : l1 = l2 ∧ r1 = r2 := by
  induction l1 generalizing l2 with
  | nil =>
    cases l2 with
    | nil => simpa using h
    | cons c t =>
      simp only [List.nil_append, List.cons_append, List.cons.injEq] at h
      exact absurd (by simp [← h.1]) h2
  | cons c t ih =>
    cases l2 with
    | nil =>
      simp only [List.nil_append, List.cons_append, List.cons.injEq] at h
      exact absurd (by simp [h.1]) h1
    | cons c2 t2 =>
      simp only [List.cons_append, List.cons.injEq] at h
      have ht := ih (fun hm => h1 (by simp [hm])) (fun hm => h2 (by simp [hm])) h.2
      exact ⟨by simp [h.1, ht.1], ht.2⟩

/-- `a ++ "=" ++ b = c ++ "=" ++ d` forces `a = c` and `b = d` when
neither key contains `'='`. -/
theorem env_entry_injective {a b c d : String}
    (ha : '=' ∉ a.data) (hc : '=' ∉ c.data)
    (h : a ++ "=" ++ b = c ++ "=" ++ d) : a = c ∧ b = d := by
  have hd := congrArg String.data h
  simp only [String.data_append] at hd
  have hd' : a.data ++ '=' :: b.data = c.data ++ '=' :: d.data := by
    simpa using hd
  obtain ⟨h1, h2⟩ := entry_split_unique ha hc hd'
  exact ⟨string_eq_of_data_eq h1, string_eq_of_data_eq h2⟩

/-- **C6.**  The child environment is exactly: the allow-listed names
present in the parent with their parent values, then the custom overrides,
then the default `PATH` entry iff neither of the former set a `PATH`; and
a variable that is neither allow-listed nor a custom override can only
occur as the injected default `PATH`, never with a parent-supplied value.
(The hypotheses say that no configured variable NAME contains `'='`, which
is what makes `key=value` entries unambiguous.) -/
theorem build_environment_allowlist_exact (cfg : SandboxConfig)
    (parent : List (String × String))
    (hA : ∀ k ∈ cfg.allowedEnv, '=' ∉ k.data)
    (hC : ∀ kv ∈ cfg.customEnv, '=' ∉ kv.1.data) :
    (buildEnvironment cfg parent =
      (cfg.allowedEnv.filterMap fun key =>
        (lookupEnv parent key).map fun val => key ++ "=" ++ val) ++
      (cfg.customEnv.map fun kv => kv.1 ++ "=" ++ kv.2) ++
      (if ((cfg.allowedEnv.filterMap fun key =>
            (lookupEnv parent key).map fun val => key ++ "=" ++ val) ++
           (cfg.customEnv.map fun kv => kv.1 ++ "=" ++ kv.2)).any
            (fun e => hasPrefixGo e "PATH=") then []
       else [defaultPathEntry])) ∧
    (∀ X v, '=' ∉ X.data → X ∉ cfg.allowedEnv →
      (∀ v', (X, v') ∉ cfg.customEnv) →
      (X ++ "=" ++ v) ∈ buildEnvironment cfg parent →
      X = "PATH" ∧ v = "/usr/local/bin:/usr/bin:/bin") := by
  constructor
  · rw [buildEnvironment]
    by_cases hp : ((cfg.allowedEnv.filterMap fun key =>
          (lookupEnv parent key).map fun val => key ++ "=" ++ val) ++
         (cfg.customEnv.map fun kv => kv.1 ++ "=" ++ kv.2)).any
          (fun e => hasPrefixGo e "PATH=") <;>
      simp [hp]
  · intro X v hX hXA hXC hmem
    rw [buildEnvironment] at hmem
    have hsplit :
        (X ++ "=" ++ v) ∈ ((cfg.allowedEnv.filterMap fun key =>
            (lookupEnv parent key).map fun val => key ++ "=" ++ val) ++
          (cfg.customEnv.map fun kv => kv.1 ++ "=" ++ kv.2)) ∨
        (X ++ "=" ++ v) = defaultPathEntry := by
      by_cases hp : ((cfg.allowedEnv.filterMap fun key =>
            (lookupEnv parent key).map fun val => key ++ "=" ++ val) ++
           (cfg.customEnv.map fun kv => kv.1 ++ "=" ++ kv.2)).any
            (fun e => hasPrefixGo e "PATH=")
      · simp only [hp, if_pos] at hmem
        exact .inl hmem
      · simp only [hp, if_neg, not_false_iff] at hmem
        rcases List.mem_append.mp hmem with hm | hm
        · exact .inl hm
        · exact .inr (by simpa using hm)
    rcases hsplit with hm | hm
    · rcases List.mem_append.mp hm with hm | hm
      · obtain ⟨key, hkey, hval⟩ := List.mem_filterMap.mp hm
        rcases hlk : lookupEnv parent key with _ | pv
        · simp [hlk] at hval
        · rw [hlk] at hval
          simp only [Option.map_some', Option.some.injEq] at hval
          obtain ⟨hXk, -⟩ := env_entry_injective hX (hA key hkey) hval.symm
          exact absurd (hXk ▸ hkey) hXA
      · obtain ⟨kv, hkv, hval⟩ := List.mem_map.mp hm
        obtain ⟨hXk, hvv⟩ := env_entry_injective hX (hC kv hkv) hval.symm
        refine absurd ?_ (hXC kv.2)
        have : kv = (X, kv.2) := by
          cases kv; simp_all
        rw [← this]
        exact hkv
    · have hdp : defaultPathEntry =
          "PATH" ++ "=" ++ "/usr/local/bin:/usr/bin:/bin" := by decide
      rw [hdp] at hm
      exact env_entry_injective hX (by decide) hm

/-- Witness for C6 at a concrete configuration: parent variables outside
the allow-list (`SECRET`) do not reach the child, and the default PATH is
injected. -/
theorem build_environment_allowlist_exact_witness :
    buildEnvironment
      { workingDir := ".", timeoutNanos := 0, allowedEnv := ["HOME"],
        customEnv := [("K", "V")], maxOutputBytes := 0,
        commandBlacklist := [] }
      [("HOME", "/root"), ("SECRET", "s3cr3t")] =
      ["HOME=/root", "K=V", defaultPathEntry] := by
  have h := (build_environment_allowlist_exact
    { workingDir := ".", timeoutNanos := 0, allowedEnv := ["HOME"],
      customEnv := [("K", "V")], maxOutputBytes := 0,
      commandBlacklist := [] }
    [("HOME", "/root"), ("SECRET", "s3cr3t")]
    (by decide) (by decide)).1
  rw [h]
  decide

/-! ## C1: the deny-list blocks execution -/

/-- A deny-list with a pattern that matches the input (under the source's
normalization: input lower-cased and whitespace-collapsed, pattern
lower-cased) makes `checkBlacklist` report a violation. -/
theorem checkBlacklist_some_of_match {blacklist : List String}
    {p input : String} (hp : p ∈ blacklist)
    (hm : matchesBlacklistPattern p (normalizeInput input) = true) :
    ∃ r, checkBlacklist blacklist input = some r ∧ r ∈ blacklist := by
  have hne : blacklist.isEmpty = false := by
    cases blacklist with
    | nil => cases hp
    | cons a l => rfl
  have hsome : (blacklist.find? fun q =>
      matchesBlacklistPattern q (normalizeInput input)).isSome := by
    rw [List.find?_isSome]
    exact ⟨p, hp, hm⟩
  rcases hfind : blacklist.find? fun q =>
      matchesBlacklistPattern q (normalizeInput input) with _ | r
  · rw [hfind] at hsome; cases hsome
  · exact ⟨r, by rw [checkBlacklist, hne]; simpa using hfind,
      List.mem_of_find?_eq_some hfind⟩

/-- **C1 (corrected: the source lower-cases each deny-list pattern but
does NOT whitespace-normalize it; only the checked input is
whitespace-normalized).**  For every configuration and pattern `p` in its
deny-list, if the lower-cased, whitespace-normalized command line (resp.
script body) matches the lower-cased `p` (`*` matching any run of
characters), then `Execute` (resp. `ExecuteScript`) returns a
blacklist-violation error naming a deny-list pattern, spawns no process,
and writes no script file. -/
theorem blacklist_match_blocks_execution (cfg : SandboxConfig)
    (w : ProcessWorld) (command : String) (args : List String)
    (interpreter script : String) (p q : String)
    (hp : p ∈ cfg.commandBlacklist)
    (hm : matchesBlacklistPattern p
      (normalizeInput (command ++ " " ++ joinSpace args)) = true)
    (hq : q ∈ cfg.commandBlacklist)
    (hqm : matchesBlacklistPattern q (normalizeInput script) = true) :
    (∃ p', p' ∈ cfg.commandBlacklist ∧
      (Execute cfg w command args).result =
        .error (.blacklistViolation p')) ∧
    (Execute cfg w command args).spawned = false ∧
    (∃ q', q' ∈ cfg.commandBlacklist ∧
      (ExecuteScript cfg w interpreter script).result =
        .error (.blacklistViolation q')) ∧
    (ExecuteScript cfg w interpreter script).spawned = false ∧
    (ExecuteScript cfg w interpreter script).scriptWritten = none := by
  obtain ⟨r, hr, hrmem⟩ := checkBlacklist_some_of_match hp hm
  obtain ⟨r', hr', hrmem'⟩ := checkBlacklist_some_of_match hq hqm
  refine ⟨⟨r, hrmem, ?_⟩, ?_, ⟨r', hrmem', ?_⟩, ?_, ?_⟩ <;>
    simp [Execute, ExecuteScript, hr, hr']

/-- Witness for C1 (amended) at a concrete blocked command and script. -/
theorem blacklist_match_blocks_execution_witness :
    (∃ p', p' ∈ ["rm -rf /"] ∧
      (Execute
        { workingDir := ".", timeoutNanos := 0, allowedEnv := [],
          customEnv := [], maxOutputBytes := 10,
          commandBlacklist := ["rm -rf /"] }
        { absWorkDirOk := true, parentEnv := [], stdoutChunks := [],
          stderrChunks := [], durationNanos := 0, deadlineExceeded := false,
          runErr := none, tmpFileOk := true }
        "rm" ["-rf", "/tmp/x"]).result = .error (.blacklistViolation p')) ∧
    (Execute
        { workingDir := ".", timeoutNanos := 0, allowedEnv := [],
          customEnv := [], maxOutputBytes := 10,
          commandBlacklist := ["rm -rf /"] }
        { absWorkDirOk := true, parentEnv := [], stdoutChunks := [],
          stderrChunks := [], durationNanos := 0, deadlineExceeded := false,
          runErr := none, tmpFileOk := true }
        "rm" ["-rf", "/tmp/x"]).spawned = false := by
  have h := blacklist_match_blocks_execution
    { workingDir := ".", timeoutNanos := 0, allowedEnv := [],
      customEnv := [], maxOutputBytes := 10,
      commandBlacklist := ["rm -rf /"] }
    { absWorkDirOk := true, parentEnv := [], stdoutChunks := [],
      stderrChunks := [], durationNanos := 0, deadlineExceeded := false,
      runErr := none, tmpFileOk := true }
    "rm" ["-rf", "/tmp/x"] "sh" "rm -rf /home" "rm -rf /" "rm -rf /"
    (by decide) (by decide) (by decide) (by decide)
  exact ⟨h.1, h.2.1⟩

/-- **C1 counterexample.**  Claim C1 states that the pattern is
whitespace-normalized before matching.  With the deny-list pattern
`"a<TAB>b"` and the command `"a<TAB>b"` (no arguments), the claim's
normalization makes both sides `"a b"` — a match, so the claim requires a
blacklist-violation error and no process.  The code, however, keeps the
raw tab in the pattern, finds no match against the whitespace-normalized
input, and spawns the process, returning a normal result. -/
theorem blacklist_pattern_whitespace_counterexample :
    claimC1MatchesPattern "a\tb" ("a\tb" ++ " " ++ joinSpace []) = true ∧
    (Execute
      { workingDir := ".", timeoutNanos := 0, allowedEnv := [],
        customEnv := [], maxOutputBytes := 10,
        commandBlacklist := ["a\tb"] }
      { absWorkDirOk := true, parentEnv := [], stdoutChunks := [],
        stderrChunks := [], durationNanos := 0, deadlineExceeded := false,
        runErr := none, tmpFileOk := true }
      "a\tb" []).spawned = true ∧
    (Execute
      { workingDir := ".", timeoutNanos := 0, allowedEnv := [],
        customEnv := [], maxOutputBytes := 10,
        commandBlacklist := ["a\tb"] }
      { absWorkDirOk := true, parentEnv := [], stdoutChunks := [],
        stderrChunks := [], durationNanos := 0, deadlineExceeded := false,
        runErr := none, tmpFileOk := true }
      "a\tb" []).result =
      .ok { stdout := [], stderr := [], exitCode := 0, duration := 0,
            timedOut := false } := by
  refine ⟨by decide, by decide, by decide⟩

/-! ## C8: Python REPL wrapping -/

theorem base64IndexOf_base64CharOf :
    ∀ v, v < 64 → base64IndexOf (base64CharOf v) = some v := by decide

theorem base64CharOf_ne_pad : ∀ v, v < 64 → base64CharOf v ≠ '=' := by decide

/-- Every byte of a UTF-8 encoded character is below 256. -/
theorem charUTF8_lt_256 (c : Char) : ∀ b ∈ charUTF8 c, b < 256 := by
  intro b hb
  have hval : c.toNat < 0x110000 := by
    rcases c.valid with h | ⟨h1, h2⟩ <;> simp [Char.toNat] <;> omega
  rw [charUTF8] at hb
  split_ifs at hb with h1 h2 h3 <;> simp at hb <;> omega

/-- Every byte of a Go string is below 256. -/
theorem stringBytes_lt_256 (s : String) : ∀ b ∈ stringBytes s, b < 256 := by
  intro b hb
  rw [stringBytes] at hb
  obtain ⟨l, hl, hbl⟩ := List.mem_flatten.mp hb
  obtain ⟨c, -, hcl⟩ := List.mem_map.mp hl
  exact charUTF8_lt_256 c b (hcl ▸ hbl)

/-- The spec-side decoder inverts `base64.StdEncoding` on byte input. -/
theorem base64_roundtrip :
    ∀ bs : List Nat, (∀ b ∈ bs, b < 256) →
      base64Decode (base64Encode bs) = some bs
  | [], _ => rfl
  | [b0], h => by
    have h0 : b0 < 256 := h b0 (by simp)
    have e1 := base64IndexOf_base64CharOf (b0 / 4) (by omega)
    have e2 := base64IndexOf_base64CharOf (b0 % 4 * 16) (by omega)
    simp [base64Encode, base64Decode, e1, e2]
    omega
  | [b0, b1], h => by
    have h0 : b0 < 256 := h b0 (by simp)
    have h1 : b1 < 256 := h b1 (by simp)
    have e1 := base64IndexOf_base64CharOf (b0 / 4) (by omega)
    have e2 := base64IndexOf_base64CharOf (b0 % 4 * 16 + b1 / 16) (by omega)
    have e3 := base64IndexOf_base64CharOf (b1 % 16 * 4) (by omega)
    have hne : base64CharOf (b1 % 16 * 4) ≠ '=' :=
      base64CharOf_ne_pad _ (by omega)
    simp [base64Encode, base64Decode, e1, e2, e3, hne]
    omega
  | b0 :: b1 :: b2 :: rest, h => by
    have h0 : b0 < 256 := h b0 (by simp)
    have h1 : b1 < 256 := h b1 (by simp)
    have h2 : b2 < 256 := h b2 (by simp)
    have ih := base64_roundtrip rest (fun b hb => h b (by simp [hb]))
    have e1 := base64IndexOf_base64CharOf (b0 / 4) (by omega)
    have e2 := base64IndexOf_base64CharOf (b0 % 4 * 16 + b1 / 16) (by omega)
    have e3 := base64IndexOf_base64CharOf (b1 % 16 * 4 + b2 / 64) (by omega)
    have e4 := base64IndexOf_base64CharOf (b2 % 64) (by omega)
    have hne1 : base64CharOf (b1 % 16 * 4 + b2 / 64) ≠ '=' :=
      base64CharOf_ne_pad _ (by omega)
    have hne2 : base64CharOf (b2 % 64) ≠ '=' :=
      base64CharOf_ne_pad _ (by omega)
    simp [base64Encode, base64Decode, e1, e2, e3, e4, hne1, hne2, ih]
    omega

/-- **C8 (corrected: the source decides by SUBSTRING markers, not by
whether the script is a single bare expression or multi-statement).**
`wrapPythonScript` passes the script through unmodified exactly when its
trimmed text contains one of the marker substrings `print(`, `print `,
`import `, `def `, `class `, `if `, `for `, `while `, `with `, `try:`;
every other script — including multi-statement scripts without those
markers — is replaced by the REPL wrapper, whose embedded base64 payload
decodes back to the original source bytes (the wrapper evaluates it and
prints the repr of a non-None result, falling back to exec). -/
theorem wrap_python_marker_criterion (script : String) :
    ((pythonWrapMarkers.any fun m => containsSub (goTrimSpace script) m) =
        true → wrapPythonScript script = script) ∧
    ((pythonWrapMarkers.any fun m => containsSub (goTrimSpace script) m) =
        false →
      wrapPythonScript script = pythonWrapper (base64EncodeString script) ∧
      base64Decode (base64EncodeString script).data =
        some (stringBytes script)) := by
  constructor
  · intro hmark
    simp [wrapPythonScript, hmark]
  · intro hmark
    refine ⟨by simp [wrapPythonScript, hmark], ?_⟩
    have hdata : (base64EncodeString script).data =
        base64Encode (stringBytes script) := rfl
    rw [hdata]
    exact base64_roundtrip _ (stringBytes_lt_256 script)

/-- Witness for C8 (amended) at the bare expression `"2 + 2"`. -/
theorem wrap_python_marker_criterion_witness :
    wrapPythonScript "2 + 2" = pythonWrapper (base64EncodeString "2 + 2") ∧
    base64Decode (base64EncodeString "2 + 2").data =
      some (stringBytes "2 + 2") :=
  (wrap_python_marker_criterion "2 + 2").2 (by decide)

/-- **C8 counterexample.**  The two-statement, non-printing script
`"a = 1\nb = 2"` is NOT passed through to the interpreter unmodified (the
claim says every multi-statement script is): it contains no marker
substring, so the source wraps it.  Conversely the single bare expression
`"gif (x)"` (no print, no control-flow keyword — `gif` is an identifier)
is passed through unmodified rather than rewritten, because it happens to
contain the substring `"if "`. -/
theorem wrap_python_multistatement_counterexample :
    wrapPythonScript "a = 1\nb = 2" ≠ "a = 1\nb = 2" ∧
    wrapPythonScript "gif (x)" = "gif (x)" := by
  exact ⟨by decide, by decide⟩

/-! ## C2: the iteration limit -/

/-- With a positive ceiling already reached, the loop body fails BEFORE
issuing a completion request (state, in particular the request count, is
untouched). -/
theorem runIteration_limit {μ Args : Type} (cfg : AgentConfig)
    (w : AgentWorld Args) (st : AgentState μ Args)
    (hM : 0 < cfg.maxIterations)
    (hge : cfg.maxIterations ≤ st.ctx.iterationCount) :
    runIteration cfg w st = .fatal (.maxIterations cfg.maxIterations) st := by
  rw [runIteration, if_pos ⟨hM, hge⟩]

/-- Below the ceiling and uncancelled, a provider answer carrying tool
calls makes the loop body execute them and continue, with the iteration
counter and the request count each advanced by one and the assistant/tool
messages appended. -/
theorem runIteration_toolcall {μ Args : Type} (cfg : AgentConfig)
    (w : AgentWorld Args) (st : AgentState μ Args) (resp : LLMResponse)
    (hlt : ¬(0 < cfg.maxIterations ∧
      cfg.maxIterations ≤ st.ctx.iterationCount))
    (hcan : w.cancelled (st.ctx.iterationCount + 1) = false)
    (hprov : w.provider (buildRequest cfg w st.ctx) = .ok resp)
    (htc : resp.toolCalls ≠ []) :
    runIteration cfg w st = .next
      { ctx := { st.ctx with
          iterationCount := st.ctx.iterationCount + 1,
          totalInputTokens := st.ctx.totalInputTokens + resp.usage.inputTokens,
          totalOutputTokens :=
            st.ctx.totalOutputTokens + resp.usage.outputTokens,
          messages := st.ctx.messages ++
            [NewAssistantToolCallMessage resp.toolCalls] ++
            toolResultsFor w resp.toolCalls },
        requests := st.requests + 1 } := by
  have hne : resp.toolCalls.isEmpty = false := by
    cases htcl : resp.toolCalls with
    | nil => exact absurd htcl htc
    | cons a l => rfl
  rw [runIteration, if_neg hlt]
  simp only [hcan, Bool.false_eq_true, if_neg, not_false_iff]
  have hreq : buildRequest cfg w
      { st.ctx with iterationCount := st.ctx.iterationCount + 1 } =
      buildRequest cfg w st.ctx := rfl
  rw [hreq, hprov]
  simp [hne, AgentContext.UpdateUsage, AgentContext.AddMessage]

/-- From `n` iterations below a positive ceiling, a provider that always
answers with a tool call drives the loop into the iteration-limit failure
after exactly `n` more completion requests. -/
theorem runLoop_hits_limit {μ Args : Type} (cfg : AgentConfig)
    (w : AgentWorld Args)
    (hprov : ∀ req, ∃ r, w.provider req = .ok r ∧ r.toolCalls ≠ [])
    (hcan : ∀ n, w.cancelled n = false)
    (hM : 0 < cfg.maxIterations) :
    ∀ (n : Nat) (st : AgentState μ Args) (fuel : Nat),
      st.ctx.iterationCount + n = cfg.maxIterations → n < fuel →
      ∃ st', runLoop cfg w fuel st =
          .failure (.maxIterations cfg.maxIterations) st' ∧
        st'.requests = st.requests + n := by
  intro n
  induction n with
  | zero =>
    intro st fuel hiter hfuel
    obtain ⟨fuel, rfl⟩ : ∃ f, fuel = f + 1 := ⟨fuel - 1, by omega⟩
    rw [runLoop, runIteration_limit cfg w st hM (by omega)]
    exact ⟨st, rfl, by omega⟩
  | succ n ihn =>
    intro st fuel hiter hfuel
    obtain ⟨fuel, rfl⟩ : ∃ f, fuel = f + 1 := ⟨fuel - 1, by omega⟩
    obtain ⟨resp, hr, htcne⟩ := hprov (buildRequest cfg w st.ctx)
    rw [runLoop, runIteration_toolcall cfg w st resp (by omega)
      (hcan _) hr htcne]
    obtain ⟨st', heq, hreq⟩ := ihn
      { ctx := { st.ctx with
          iterationCount := st.ctx.iterationCount + 1,
          totalInputTokens := st.ctx.totalInputTokens + resp.usage.inputTokens,
          totalOutputTokens :=
            st.ctx.totalOutputTokens + resp.usage.outputTokens,
          messages := st.ctx.messages ++
            [NewAssistantToolCallMessage resp.toolCalls] ++
            toolResultsFor w resp.toolCalls },
        requests := st.requests + 1 }
      fuel
      (show st.ctx.iterationCount + 1 + (n : Int) = cfg.maxIterations by
        omega)
      (by omega)
    refine ⟨st', heq, ?_⟩
    have hreq' : st'.requests = st.requests + 1 + n := hreq
    omega

/-- **C2.**  With a configured positive ceiling `M`, a provider that
always answers with a new tool call, and no cancellation, `Run` (from a
fresh iteration counter) aborts with the iteration-limit error after
issuing exactly `M` completion requests — the ceiling is checked at the
top of each pass, before the next request, never mid-tool-execution. -/
theorem run_iteration_limit_exact_requests {μ Args : Type}
    (cfg : AgentConfig) (w : AgentWorld Args) (c : AgentContext μ)
    (userMessage : String) (fuel : Nat)
    (hM : 0 < cfg.maxIterations)
    (hprov : ∀ req, ∃ r, w.provider req = .ok r ∧ r.toolCalls ≠ [])
    (hcan : ∀ n, w.cancelled n = false)
    (hc0 : c.iterationCount = 0)
    (hfuel : cfg.maxIterations.toNat < fuel) :
    ∃ st', Run cfg w fuel c userMessage =
        .failure (.maxIterations cfg.maxIterations) st' ∧
      st'.requests = cfg.maxIterations.toNat := by
  rw [Run]
  obtain ⟨st', heq, hreq⟩ := runLoop_hits_limit cfg w hprov hcan hM
    cfg.maxIterations.toNat
    { ctx := c.AddMessage (NewUserMessage userMessage), requests := 0 }
    fuel
    (show c.iterationCount + (cfg.maxIterations.toNat : Int) =
        cfg.maxIterations by rw [hc0]; omega)
    hfuel
  refine ⟨st', heq, ?_⟩
  have hreq' : st'.requests = 0 + cfg.maxIterations.toNat := hreq
  omega

/-- Witness for C2: ceiling 3, a provider that always asks for the same
tool call — the loop fails with the limit error after exactly 3 requests. -/
theorem run_iteration_limit_exact_requests_witness :
    ∃ st' : AgentState Unit Unit,
      Run ⟨"m", "sys", 3, 100⟩
          ⟨fun _ => .ok ⟨"", [⟨"c1", "t", "{}"⟩], "tool_use", ⟨1, 2⟩⟩,
           fun _ => .ok (), [], fun _ => false⟩
          4 (NewContext Unit ".") "hello" =
        .failure (.maxIterations 3) st' ∧
      st'.requests = (3 : Int).toNat :=
  run_iteration_limit_exact_requests
    ⟨"m", "sys", 3, 100⟩
    ⟨fun _ => .ok ⟨"", [⟨"c1", "t", "{}"⟩], "tool_use", ⟨1, 2⟩⟩,
     fun _ => .ok (), [], fun _ => false⟩
    (NewContext Unit ".") "hello" 4 (by decide)
    (fun req => ⟨⟨"", [⟨"c1", "t", "{}"⟩], "tool_use", ⟨1, 2⟩⟩, rfl,
      by decide⟩)
    (fun n => rfl) rfl (by decide)

/-! ## C3: tool-level errors are recovered locally -/

/-- A failing tool call contributes the `"Error: <message>"` tool-result
message, correlated by the call's id. -/
theorem toolResultsFor_mem_error {Args : Type} (w : AgentWorld Args)
    {tcs : List ToolCall} {tc : ToolCall} {m : String}
    (htc : tc ∈ tcs) (hfail : executeTool w tc = .error m) :
    NewToolResultMessage tc.id ("Error: " ++ m) ∈ toolResultsFor w tcs := by
  rw [toolResultsFor]
  refine List.mem_map.mpr ⟨tc, htc, ?_⟩
  rw [hfail]

/-- The loop body never loses completion requests. -/
theorem runIteration_requests_le {μ Args : Type} (cfg : AgentConfig)
    (w : AgentWorld Args) (st : AgentState μ Args) :
    st.requests ≤ ((runIteration cfg w st).state).requests := by
  rw [runIteration]
  split
  · exact le_refl _
  · dsimp only
    split
    · exact le_refl _
    · split
      · simp only [StepResult.state]; omega
      · split
        · split
          · simp only [StepResult.state]; omega
          · simp only [StepResult.state]; omega
        · simp only [StepResult.state]; omega

/-- Once past the limit and cancellation checks, the loop body issues
exactly one completion request, whatever the outcome. -/
theorem runIteration_requests_succ {μ Args : Type} (cfg : AgentConfig)
    (w : AgentWorld Args) (st : AgentState μ Args)
    (hlt : ¬(0 < cfg.maxIterations ∧
      cfg.maxIterations ≤ st.ctx.iterationCount))
    (hcan : w.cancelled (st.ctx.iterationCount + 1) = false) :
    ((runIteration cfg w st).state).requests = st.requests + 1 := by
  rw [runIteration, if_neg hlt]
  dsimp only
  simp only [hcan, Bool.false_eq_true, if_neg, not_false_iff]
  split
  · simp only [StepResult.state]
  · split
    · split
      · simp only [StepResult.state]
      · simp only [StepResult.state]
    · simp only [StepResult.state]

/-- The request counter is monotone along the loop. -/
theorem runLoop_requests_mono {μ Args : Type} (cfg : AgentConfig)
    (w : AgentWorld Args) :
    ∀ (fuel : Nat) (st : AgentState μ Args),
      st.requests ≤ ((runLoop cfg w fuel st).state).requests := by
  intro fuel
  induction fuel with
  | zero => intro st; exact le_refl _
  | succ fuel ih =>
    intro st
    rw [runLoop]
    cases hri : runIteration cfg w st with
    | next st' =>
      have h1 := runIteration_requests_le cfg w st
      rw [hri] at h1
      exact le_trans h1 (ih st')
    | finished a st' =>
      have h1 := runIteration_requests_le cfg w st
      rw [hri] at h1
      exact h1
    | fatal e st' =>
      have h1 := runIteration_requests_le cfg w st
      rw [hri] at h1
      exact h1

/-- **C3.**  When the provider's answer carries tool calls and one of them
fails to resolve or execute (unknown tool, unparsable arguments, or a tool
error), the loop does not abort: the error text, formatted as
`"Error: <message>"`, is appended to history as a tool-result message
correlated by the call's id (together with the assistant tool-call record,
and the results of the other calls of the batch, in order), and the loop
continues — issuing another completion request as soon as the next pass
clears the limit and cancellation checks. -/
theorem tool_error_recovered_locally {μ Args : Type} (cfg : AgentConfig)
    (w : AgentWorld Args) (st : AgentState μ Args) (resp : LLMResponse)
    (tc : ToolCall) (m : String)
    (hlt : ¬(0 < cfg.maxIterations ∧
      cfg.maxIterations ≤ st.ctx.iterationCount))
    (hcan : w.cancelled (st.ctx.iterationCount + 1) = false)
    (hprov : w.provider (buildRequest cfg w st.ctx) = .ok resp)
    (htc : tc ∈ resp.toolCalls)
    (hfail : executeTool w tc = .error m) :
    ∃ st', runIteration cfg w st = .next st' ∧
      st'.ctx.messages = st.ctx.messages ++
        [NewAssistantToolCallMessage resp.toolCalls] ++
        toolResultsFor w resp.toolCalls ∧
      NewToolResultMessage tc.id ("Error: " ++ m) ∈ st'.ctx.messages ∧
      st'.requests = st.requests + 1 ∧
      st'.ctx.iterationCount = st.ctx.iterationCount + 1 ∧
      (∀ fuel, runLoop cfg w (fuel + 1) st = runLoop cfg w fuel st') ∧
      (¬(0 < cfg.maxIterations ∧
          cfg.maxIterations ≤ st.ctx.iterationCount + 1) →
        w.cancelled (st.ctx.iterationCount + 2) = false →
        ∀ fuel, st.requests + 2 ≤
          ((runLoop cfg w (fuel + 2) st).state).requests) := by
  have htcne : resp.toolCalls ≠ [] := by
    intro hnil; rw [hnil] at htc; cases htc
  obtain ⟨st', hst'⟩ : ∃ x : AgentState μ Args,
      x = { ctx := { st.ctx with
              iterationCount := st.ctx.iterationCount + 1,
              totalInputTokens :=
                st.ctx.totalInputTokens + resp.usage.inputTokens,
              totalOutputTokens :=
                st.ctx.totalOutputTokens + resp.usage.outputTokens,
              messages := st.ctx.messages ++
                [NewAssistantToolCallMessage resp.toolCalls] ++
                toolResultsFor w resp.toolCalls },
            requests := st.requests + 1 } := ⟨_, rfl⟩
  have hstep : runIteration cfg w st = .next st' := by
    rw [hst']
    exact runIteration_toolcall cfg w st resp hlt hcan hprov htcne
  have hmsg : st'.ctx.messages = st.ctx.messages ++
      [NewAssistantToolCallMessage resp.toolCalls] ++
      toolResultsFor w resp.toolCalls := by rw [hst']
  have hreq : st'.requests = st.requests + 1 := by rw [hst']
  have hiter : st'.ctx.iterationCount = st.ctx.iterationCount + 1 := by
    rw [hst']
  refine ⟨st', hstep, hmsg, ?_, hreq, hiter, ?_, ?_⟩
  · rw [hmsg]
    exact List.mem_append.mpr (.inr (toolResultsFor_mem_error w htc hfail))
  · intro fuel
    rw [runLoop, hstep]
  · intro hlt' hcan' fuel
    have h6 : runLoop cfg w (fuel + 1 + 1) st = runLoop cfg w (fuel + 1) st' := by
      rw [runLoop, hstep]
    rw [show fuel + 2 = fuel + 1 + 1 from rfl, h6, runLoop]
    have hsucc := runIteration_requests_succ cfg w st'
      (by rw [hiter]; exact hlt')
      (by rw [hiter,
        show st.ctx.iterationCount + 1 + 1 = st.ctx.iterationCount + 2 by
          omega]; exact hcan')
    cases hri : runIteration cfg w st' with
    | next st2 =>
      rw [hri] at hsucc
      have hmono := runLoop_requests_mono cfg w fuel st2
      have h2 : st2.requests = st'.requests + 1 := hsucc
      simp only [RunResult.state] at hmono ⊢
      omega
    | finished a st2 =>
      rw [hri] at hsucc
      have h2 : st2.requests = st'.requests + 1 := hsucc
      simp only [RunResult.state]
      omega
    | fatal e st2 =>
      rw [hri] at hsucc
      have h2 : st2.requests = st'.requests + 1 := hsucc
      simp only [RunResult.state]
      omega

/-- Witness for C3: a provider requesting an unregistered tool — the
error is fed back as a tool message and the loop carries on. -/
theorem tool_error_recovered_locally_witness :
    ∃ st' : AgentState Unit Unit,
      runIteration ⟨"m", "sys", 3, 100⟩
          ⟨fun _ => .ok ⟨"", [⟨"c1", "nope", "{}"⟩], "tool_use", ⟨1, 2⟩⟩,
           fun _ => .ok (), [], fun _ => false⟩
          ⟨NewContext Unit ".", 0⟩ = .next st' ∧
      st'.ctx.messages = (NewContext Unit ".").messages ++
        [NewAssistantToolCallMessage [⟨"c1", "nope", "{}"⟩]] ++
        toolResultsFor
          ⟨fun _ => .ok ⟨"", [⟨"c1", "nope", "{}"⟩], "tool_use", ⟨1, 2⟩⟩,
           fun _ => .ok (), [], fun _ => false⟩
          [⟨"c1", "nope", "{}"⟩] ∧
      NewToolResultMessage "c1" ("Error: " ++ "unknown tool: nope") ∈
        st'.ctx.messages := by
  obtain ⟨st', h1, h2, h3, -⟩ := tool_error_recovered_locally
    ⟨"m", "sys", 3, 100⟩
    ⟨fun _ => .ok ⟨"", [⟨"c1", "nope", "{}"⟩], "tool_use", ⟨1, 2⟩⟩,
     fun _ => .ok (), [], fun _ => false⟩
    ⟨NewContext Unit ".", 0⟩
    ⟨"", [⟨"c1", "nope", "{}"⟩], "tool_use", ⟨1, 2⟩⟩
    ⟨"c1", "nope", "{}"⟩ "unknown tool: nope"
    (by decide) rfl rfl (by decide) (by decide)
  exact ⟨st', h1, h2, h3⟩

/-! ## C7: stream argument-fragment round-trip -/

theorem getAssoc_setAssoc_self {α : Type} (l : List (Nat × α)) (k : Nat)
    (v : α) : getAssoc (setAssoc l k v) k = some v := by
  induction l with
  | nil => simp [setAssoc, getAssoc]
  | cons p rest ih =>
    by_cases hp : p.1 = k <;> simp [setAssoc, getAssoc, hp, ih]

theorem getAssoc_setAssoc_ne {α : Type} (l : List (Nat × α)) (k j : Nat)
    (v : α) (h : j ≠ k) : getAssoc (setAssoc l k v) j = getAssoc l j := by
  have h1 : ¬(k = j) := fun he => h he.symm
  induction l with
  | nil => simp [setAssoc, getAssoc, h1]
  | cons p rest ih =>
    by_cases hp : p.1 = k
    · have h2 : ¬(p.1 = j) := by rw [hp]; exact h1
      simp [setAssoc, hp, getAssoc, h1, h2]
    · by_cases hj : p.1 = j <;> simp [setAssoc, hp, getAssoc, hj, ih, h]

theorem mem_setAssoc {α : Type} {l : List (Nat × α)} {k : Nat} {v : α}
    {p : Nat × α} (h : p ∈ setAssoc l k v) : p ∈ l ∨ p = (k, v) := by
  induction l with
  | nil => simpa [setAssoc] using h
  | cons q rest ih =>
    by_cases hq : q.1 = k
    · simp only [setAssoc, hq, if_pos] at h
      rcases List.mem_cons.mp h with h | h
      · exact .inr h
      · exact .inl (List.mem_cons_of_mem q h)
    · simp only [setAssoc, hq, if_neg, not_false_iff] at h
      rcases List.mem_cons.mp h with h | h
      · exact .inl (h ▸ List.mem_cons_self q rest)
      · rcases ih h with h | h
        · exact .inl (List.mem_cons_of_mem q h)
        · exact .inr h

theorem deltaConcat_append (idx : Nat) (l1 l2 : List SEvent) :
    deltaConcat idx (l1 ++ l2) =
      deltaConcat idx l1 ++ deltaConcat idx l2 := by
  induction l1 with
  | nil => simp [deltaConcat]
  | cons e l1 ih =>
    simp only [List.cons_append, deltaConcat, String.append_assoc]
    exact congrArg _ ih

theorem oaInv_nondelta_events (st : OAState) (evs0 evs : List SEvent)
    (hinv : oaInv st evs0) (hevs : ∀ i, deltaConcat i evs = "") :
    oaInv st (evs0 ++ evs) := by
  obtain ⟨h1, h2, h3⟩ := hinv
  refine ⟨h1, fun i hi => ?_, fun i hi => ?_⟩
  · rw [deltaConcat_append, hevs, String.append_empty]
    exact h2 i hi
  · rw [deltaConcat_append, hevs, String.append_empty]
    exact h3 i hi

theorem oaInv_delta (st : OAState) (evs0 : List SEvent) (idx : Nat)
    (s : String) (hinv : oaInv st evs0) (hidx : idx ∈ st.toolCallStarted) :
    oaInv { st with
            toolCallArgs := setAssoc st.toolCallArgs idx (((getAssoc st.toolCallArgs idx).getD "") ++ s) }
          (evs0 ++ [SEvent.toolCallDelta idx s]) := by
  obtain ⟨h1, h2, h3⟩ := hinv
  refine ⟨h1, fun i hi => ?_, fun i hi => ?_⟩
  · by_cases hii : i = idx
    · subst hii
      rw [getAssoc_setAssoc_self, deltaConcat_append, h2 i hi]
      simp [deltaConcat]
    · have hii2 : ¬(idx = i) := fun he => hii he.symm
      rw [getAssoc_setAssoc_ne _ _ _ _ hii, deltaConcat_append, h2 i hi]
      simp [deltaConcat, hii2, String.append_empty]
  · have hii : i ≠ idx := fun he => hi (he ▸ hidx)
    have hii2 : ¬(idx = i) := fun he => hii he.symm
    rw [deltaConcat_append, h3 i hi]
    simp [deltaConcat, hii2, String.append_empty]

theorem oaInv_start (st : OAState) (evs0 : List SEvent) (idx : Nat)
    (tc : ToolCall) (hinv : oaInv st evs0)
    (hidx : idx ∉ st.toolCallStarted) :
    oaInv { st with
            toolCallStarted := st.toolCallStarted ++ [idx],
            toolCalls := setAssoc st.toolCalls idx tc,
            toolCallArgs := setAssoc st.toolCallArgs idx "" }
          (evs0 ++ [SEvent.toolCallStart idx tc]) := by
  obtain ⟨h1, h2, h3⟩ := hinv
  refine ⟨fun p hp => ?_, fun i hi => ?_, fun i hi => ?_⟩
  · rcases mem_setAssoc hp with hp | hp
    · exact List.mem_append_left _ (h1 p hp)
    · rw [hp]
      exact List.mem_append_right _ (List.mem_singleton_self idx)
  · rcases List.mem_append.mp hi with hi | hi
    · have hii : i ≠ idx := fun he => hidx (he ▸ hi)
      rw [getAssoc_setAssoc_ne _ _ _ _ hii, deltaConcat_append, h2 i hi]
      simp [deltaConcat]
    · have hii : i = idx := List.mem_singleton.mp hi
      subst hii
      rw [getAssoc_setAssoc_self, deltaConcat_append, h3 i hidx]
      simp [deltaConcat]
  · have hi1 : i ∉ st.toolCallStarted := fun hc => hi (List.mem_append_left _ hc)
    rw [deltaConcat_append, h3 i hi1]
    simp [deltaConcat]

theorem oaInv_map_toolCalls (st : OAState) (evs0 : List SEvent)
    (f : Nat × ToolCall → Nat × ToolCall) (hinv : oaInv st evs0)
    (hf : ∀ p, (f p).1 = p.1) :
    oaInv { st with toolCalls := st.toolCalls.map f } evs0 := by
  obtain ⟨h1, h2, h3⟩ := hinv
  refine ⟨fun p hp => ?_, h2, h3⟩
  obtain ⟨q, hq, hfq⟩ := List.mem_map.mp hp
  rw [← hfq, hf]
  exact h1 q hq

theorem oaProcess_cons (wd : OAWireDelta) (rest : List OAWireDelta)
    (st : OAState) :
    oaProcess (wd :: rest) st =
      ((oaStep st wd).2 ++ (oaProcess rest (oaStep st wd).1).1,
       (oaProcess rest (oaStep st wd).1).2) := by
  rw [oaProcess]

theorem oaInv_merge_meta (st : OAState) (evs0 : List SEvent)
    (d : OAToolCallDelta) (hinv : oaInv st evs0) :
    oaInv { st with toolCalls := st.toolCalls.map fun p =>
        if p.1 = d.index then
          (p.1, { p.2 with
            id := if d.id ≠ "" then d.id else p.2.id,
            name := if d.name ≠ "" then d.name else p.2.name })
        else p } evs0 := by
  obtain ⟨h1, h2, h3⟩ := hinv
  refine ⟨fun p hp => ?_, h2, h3⟩
  obtain ⟨q, hq, hfq⟩ := List.mem_map.mp hp
  have hkey : p.1 = q.1 := by
    rw [← hfq]
    by_cases hqd : q.1 = d.index <;> simp [hqd]
  rw [hkey]
  exact h1 q hq

theorem oaProcess_inv (chunks : List OAWireDelta) :
    ∀ (st : OAState) (evs0 : List SEvent),
      oaWF st.toolCallStarted chunks → oaInv st evs0 →
      oaInv (oaProcess chunks st).2 (evs0 ++ (oaProcess chunks st).1) ∧
      (∀ i tc, SEvent.toolCallEnd i tc ∉ (oaProcess chunks st).1) := by
  induction chunks with
  | nil =>
    intro st evs0 hwf hinv
    rw [oaProcess]
    exact ⟨by simpa using hinv, by simp⟩
  | cons wd rest ih =>
    intro st evs0 hwf hinv
    rw [oaProcess_cons]
    have key : ∀ (st1 : OAState) (evs1 : List SEvent),
        oaWF st1.toolCallStarted rest →
        oaInv st1 (evs0 ++ evs1) →
        (∀ i tc, SEvent.toolCallEnd i tc ∉ evs1) →
        oaInv (oaProcess rest st1).2
          (evs0 ++ (evs1 ++ (oaProcess rest st1).1)) ∧
        (∀ i tc, SEvent.toolCallEnd i tc ∉
          evs1 ++ (oaProcess rest st1).1) := by
      intro st1 evs1 hwf1 hinv1 hend1
      obtain ⟨ihin, ihend⟩ := ih st1 (evs0 ++ evs1) hwf1 hinv1
      refine ⟨by simpa [List.append_assoc] using ihin, ?_⟩
      intro i tc hmem
      rcases List.mem_append.mp hmem with hm | hm
      · exact hend1 i tc hm
      · exact ihend i tc hm
    cases wd with
    | content s =>
      have hwf' : oaWF st.toolCallStarted rest := hwf
      by_cases hs : s = ""
      · have hstep : oaStep st (.content s) = (st, []) := by
          simp [oaStep, hs]
        rw [hstep]
        refine key st [] hwf' (by simpa using hinv) (by simp)
      · have hstep : oaStep st (.content s) = (st, [SEvent.text s]) := by
          simp [oaStep, hs]
        rw [hstep]
        refine key st [SEvent.text s] hwf'
          (oaInv_nondelta_events st evs0 _ hinv (fun i => by simp [deltaConcat]))
          (fun i tc hm => by simp at hm)
    | finish r =>
      have hwf' : oaWF st.toolCallStarted rest := hwf
      have hstep : oaStep st (.finish r) =
          ({ st with stopReason := if r ≠ "" then r else st.stopReason },
           []) := by
        simp [oaStep]
      rw [hstep]
      exact key _ [] hwf' (by simpa using hinv) (by simp)
    | usage i o =>
      have hwf' : oaWF st.toolCallStarted rest := hwf
      have hstep : oaStep st (.usage i o) =
          ({ st with inputTokens := i, outputTokens := o }, []) := by
        simp [oaStep]
      rw [hstep]
      exact key _ [] hwf' (by simpa using hinv) (by simp)
    | toolCall d =>
      simp only [oaWF] at hwf
      obtain ⟨hfrag, hwf'⟩ := hwf
      by_cases hid : d.id ≠ "" ∨ d.name ≠ ""
      · by_cases hst : d.index ∈ st.toolCallStarted
        · -- already started: metadata merge, maybe a fragment
          have hcond : ¬((d.id ≠ "" ∨ d.name ≠ "") ∧
              d.index ∉ st.toolCallStarted) := fun hc => hc.2 hst
          rw [if_neg hcond] at hfrag hwf'
          by_cases hd : d.argumentsDelta = ""
          · have hstep : oaStep st (.toolCall d) =
                ({ st with toolCalls := st.toolCalls.map fun p =>
                    if p.1 = d.index then
                      (p.1, { p.2 with
                        id := if d.id ≠ "" then d.id else p.2.id,
                        name := if d.name ≠ "" then d.name else p.2.name })
                    else p }, []) := by
              simp [oaStep, oaToolCallStep, hid, hst, hd]
            rw [hstep]
            refine key _ [] hwf'
              (by simpa using oaInv_merge_meta st evs0 d hinv)
              (by simp)
          · have hstep : oaStep st (.toolCall d) =
                ({ st with
                    toolCalls := st.toolCalls.map fun p =>
                      if p.1 = d.index then
                        (p.1, { p.2 with
                          id := if d.id ≠ "" then d.id else p.2.id,
                          name := if d.name ≠ "" then d.name else p.2.name })
                      else p,
                    toolCallArgs := setAssoc st.toolCallArgs d.index (((getAssoc st.toolCallArgs d.index).getD "") ++ d.argumentsDelta) },
                 [SEvent.toolCallDelta d.index d.argumentsDelta]) := by
              simp [oaStep, oaToolCallStep, hid, hst, hd]
            rw [hstep]
            refine key _ [SEvent.toolCallDelta d.index d.argumentsDelta] hwf'
              (oaInv_delta _ evs0 d.index d.argumentsDelta
                (oaInv_merge_meta st evs0 d hinv) hst)
              (fun i tc hm => by simp at hm)
        · -- fresh start, maybe a fragment
          have hcond : (d.id ≠ "" ∨ d.name ≠ "") ∧
              d.index ∉ st.toolCallStarted := ⟨hid, hst⟩
          rw [if_pos hcond] at hfrag hwf'
          by_cases hd : d.argumentsDelta = ""
          · have hstep : oaStep st (.toolCall d) =
                ({ st with
                    toolCallStarted := st.toolCallStarted ++ [d.index],
                    toolCalls := setAssoc st.toolCalls d.index
                      { id := d.id, name := d.name, arguments := "" },
                    toolCallArgs := setAssoc st.toolCallArgs d.index "" },
                 [SEvent.toolCallStart d.index
                   { id := d.id, name := d.name, arguments := "" }]) := by
              simp [oaStep, oaToolCallStep, hid, hst, hd]
            rw [hstep]
            refine key _ _ hwf'
              (oaInv_start st evs0 d.index _ hinv hst)
              (fun i tc hm => by simp at hm)
          · have hstep : oaStep st (.toolCall d) =
                ({ { st with
                      toolCallStarted := st.toolCallStarted ++ [d.index],
                      toolCalls := setAssoc st.toolCalls d.index
                        { id := d.id, name := d.name, arguments := "" },
                      toolCallArgs := setAssoc st.toolCallArgs d.index "" }
                    with
                    toolCallArgs := setAssoc (setAssoc st.toolCallArgs d.index "") d.index (((getAssoc (setAssoc st.toolCallArgs d.index "") d.index).getD "") ++ d.argumentsDelta) },
                 [SEvent.toolCallStart d.index
                    { id := d.id, name := d.name, arguments := "" },
                  SEvent.toolCallDelta d.index d.argumentsDelta]) := by
              simp [oaStep, oaToolCallStep, hid, hst, hd]
            rw [hstep]
            refine key _ _ ?_ ?_ (fun i tc hm => by simp at hm)
            · exact hwf'
            · have hinv1 := oaInv_start st evs0 d.index
                { id := d.id, name := d.name, arguments := "" } hinv hst
              have hinv2 := oaInv_delta _ (evs0 ++
                [SEvent.toolCallStart d.index
                  { id := d.id, name := d.name, arguments := "" }])
                d.index d.argumentsDelta hinv1
                (List.mem_append_right _ (List.mem_singleton_self d.index))
              simpa [List.append_assoc] using hinv2
      · -- no id/name in this entry
        have hcond : ¬((d.id ≠ "" ∨ d.name ≠ "") ∧
            d.index ∉ st.toolCallStarted) := fun hc => hid hc.1
        rw [if_neg hcond] at hfrag hwf'
        by_cases hd : d.argumentsDelta = ""
        · have hstep : oaStep st (.toolCall d) = (st, []) := by
            simp [oaStep, oaToolCallStep, hid, hd]
          rw [hstep]
          exact key st [] hwf' (by simpa using hinv) (by simp)
        · have hstep : oaStep st (.toolCall d) =
              ({ st with toolCallArgs := setAssoc st.toolCallArgs d.index (((getAssoc st.toolCallArgs d.index).getD "") ++ d.argumentsDelta) },
               [SEvent.toolCallDelta d.index d.argumentsDelta]) := by
            simp [oaStep, oaToolCallStep, hid, hd]
          rw [hstep]
          exact key _ _ hwf'
            (oaInv_delta st evs0 d.index d.argumentsDelta hinv (hfrag hd))
            (fun i tc hm => by simp at hm)

theorem deltaConcat_oaFinalize (idx : Nat) (st : OAState) :
    deltaConcat idx (oaFinalize st) = "" := by
  rw [oaFinalize]
  induction st.toolCalls with
  | nil => simp [deltaConcat]
  | cons p rest ih => simpa [deltaConcat] using ih

theorem oaFinalize_end_mem {st : OAState} {i : Nat} {tc : ToolCall}
    (h : SEvent.toolCallEnd i tc ∈ oaFinalize st) :
    ∃ p ∈ st.toolCalls, p.1 = i ∧
      tc = { p.2 with arguments := (getAssoc st.toolCallArgs p.1).getD "" } := by
  rw [oaFinalize] at h
  rcases List.mem_append.mp h with hm | hm
  · obtain ⟨p, hp, hpe⟩ := List.mem_map.mp hm
    refine ⟨p, hp, ?_, ?_⟩
    · exact (SEvent.toolCallEnd.injEq _ _ _ _).mp hpe.symm |>.1.symm
    · exact ((SEvent.toolCallEnd.injEq _ _ _ _).mp hpe.symm).2
  · simp at hm

theorem oaCompleteStream_end_args (chunks : List OAWireDelta)
    (hwf : oaWF [] chunks) (i : Nat) (tc : ToolCall)
    (hmem : SEvent.toolCallEnd i tc ∈ oaCompleteStream chunks) :
    tc.arguments = deltaConcat i (oaCompleteStream chunks) := by
  have hini : oaInv OAState.initial [] := by
    refine ⟨?_, ?_, ?_⟩ <;> intro x hx <;>
      simp [OAState.initial, deltaConcat] at hx ⊢
  obtain ⟨hinv', hnoend⟩ := oaProcess_inv chunks OAState.initial [] hwf hini
  have hcs : oaCompleteStream chunks =
      (oaProcess chunks OAState.initial).1 ++
        oaFinalize (oaProcess chunks OAState.initial).2 := by
    rw [oaCompleteStream]
  rw [hcs] at hmem ⊢
  rcases List.mem_append.mp hmem with hm | hm
  · exact absurd hm (hnoend i tc)
  · obtain ⟨p, hp, hpi, htc⟩ := oaFinalize_end_mem hm
    obtain ⟨h1, h2, h3⟩ := hinv'
    have hargs := h2 p.1 (h1 p hp)
    rw [htc, deltaConcat_append, deltaConcat_oaFinalize,
      String.append_empty, ← hpi]
    show (getAssoc (oaProcess chunks OAState.initial).2.toolCallArgs p.1).getD ""
      = deltaConcat p.1 (oaProcess chunks OAState.initial).1
    have hargs' : getAssoc (oaProcess chunks OAState.initial).2.toolCallArgs p.1
        = some (deltaConcat p.1 (oaProcess chunks OAState.initial).1) := hargs
    rw [hargs']
    rfl

theorem getAssoc_mem {α : Type} {l : List (Nat × α)} {k : Nat} {v : α}
    (h : getAssoc l k = some v) : (k, v) ∈ l := by
  induction l with
  | nil => simp [getAssoc] at h
  | cons p rest ih =>
    by_cases hp : p.1 = k
    · simp only [getAssoc, hp, if_pos, Option.some.injEq] at h
      have hpkv : p = (k, v) := by
        cases p
        simp_all
      rw [← hpkv]
      exact List.mem_cons_self p rest
    · simp only [getAssoc, hp, if_neg, not_false_iff] at h
      exact List.mem_cons_of_mem p (ih h)

theorem anInv_nondelta_events (st : AnState) (started : List Nat)
    (evs0 evs : List SEvent) (hinv : anInv st started evs0)
    (hevs : ∀ i, deltaConcat i evs = "") :
    anInv st started (evs0 ++ evs) := by
  obtain ⟨h1, h2, h3⟩ := hinv
  refine ⟨h1, fun i hi => ?_, fun i hi => ?_⟩
  · rw [deltaConcat_append, hevs, String.append_empty]
    exact h2 i hi
  · rw [deltaConcat_append, hevs, String.append_empty]
    exact h3 i hi

theorem anInv_delta (st : AnState) (started : List Nat)
    (evs0 : List SEvent) (idx : Nat) (s : String)
    (hinv : anInv st started evs0) (hidx : idx ∈ started) :
    anInv { st with
            toolCallArgs := setAssoc st.toolCallArgs idx (((getAssoc st.toolCallArgs idx).getD "") ++ s) }
          started (evs0 ++ [SEvent.toolCallDelta idx s]) := by
  obtain ⟨h1, h2, h3⟩ := hinv
  refine ⟨h1, fun i hi => ?_, fun i hi => ?_⟩
  · by_cases hii : i = idx
    · subst hii
      rw [getAssoc_setAssoc_self, deltaConcat_append, h2 i hi]
      simp [deltaConcat]
    · have hii2 : ¬(idx = i) := fun he => hii he.symm
      rw [getAssoc_setAssoc_ne _ _ _ _ hii, deltaConcat_append, h2 i hi]
      simp [deltaConcat, hii2, String.append_empty]
  · have hii : i ≠ idx := fun he => hi (he ▸ hidx)
    have hii2 : ¬(idx = i) := fun he => hii he.symm
    rw [deltaConcat_append, h3 i hi]
    simp [deltaConcat, hii2, String.append_empty]

theorem anInv_start (st : AnState) (started : List Nat)
    (evs0 : List SEvent) (idx : Nat) (tc : ToolCall)
    (hinv : anInv st started evs0) (hidx : idx ∉ started) :
    anInv { st with
            toolCalls := setAssoc st.toolCalls idx tc,
            toolCallArgs := setAssoc st.toolCallArgs idx "" }
          (started ++ [idx]) (evs0 ++ [SEvent.toolCallStart idx tc]) := by
  obtain ⟨h1, h2, h3⟩ := hinv
  refine ⟨fun p hp => ?_, fun i hi => ?_, fun i hi => ?_⟩
  · rcases mem_setAssoc hp with hp | hp
    · exact List.mem_append_left _ (h1 p hp)
    · rw [hp]
      exact List.mem_append_right _ (List.mem_singleton_self idx)
  · rcases List.mem_append.mp hi with hi | hi
    · have hii : i ≠ idx := fun he => hidx (he ▸ hi)
      rw [getAssoc_setAssoc_ne _ _ _ _ hii, deltaConcat_append, h2 i hi]
      simp [deltaConcat]
    · have hii : i = idx := List.mem_singleton.mp hi
      subst hii
      rw [getAssoc_setAssoc_self, deltaConcat_append, h3 i hidx]
      simp [deltaConcat]
  · have hi1 : i ∉ started := fun hc => hi (List.mem_append_left _ hc)
    rw [deltaConcat_append, h3 i hi1]
    simp [deltaConcat]

/-- After an index's block has stopped, a well-formed Anthropic stream
emits no further argument fragments for it. -/
theorem anProcess_no_delta_of_stopped (events : List AnWireEvent) :
    ∀ (st : AnState) (started stopped : List Nat) (i : Nat),
      anWF started stopped events → i ∈ stopped →
      deltaConcat i (anProcess events st) = "" := by
  induction events with
  | nil =>
    intro st started stopped i hwf hi
    simp [anProcess, deltaConcat, anDoneEvent]
  | cons e rest ih =>
    intro st started stopped i hwf hi
    cases e with
    | messageStop => simp [anProcess, deltaConcat, anDoneEvent]
    | messageStart n =>
      have heq : anProcess (.messageStart n :: rest) st =
          anProcess rest { st with inputTokens := n } := rfl
      rw [heq]
      exact ih _ started stopped i hwf hi
    | blockStartOther j =>
      have heq : anProcess (.blockStartOther j :: rest) st =
          anProcess rest st := rfl
      rw [heq]
      exact ih _ started stopped i hwf hi
    | messageDelta r o =>
      have heq : anProcess (.messageDelta r o :: rest) st =
          anProcess rest { st with
            stopReason := if r ≠ "" then r else st.stopReason,
            outputTokens := o.getD st.outputTokens } := rfl
      rw [heq]
      exact ih _ started stopped i hwf hi
    | textDelta j s =>
      have heq : anProcess (.textDelta j s :: rest) st =
          (if s ≠ "" then [SEvent.text s] else []) ++ anProcess rest st := rfl
      rw [heq, deltaConcat_append]
      rw [ih _ started stopped i hwf hi]
      by_cases hs : s = "" <;> simp [hs, deltaConcat]
    | blockStartToolUse j id name =>
      obtain ⟨hnot, hwf'⟩ := hwf
      have heq : anProcess (.blockStartToolUse j id name :: rest) st =
          [SEvent.toolCallStart j { id := id, name := name, arguments := "" }] ++
            anProcess rest { st with
              toolCalls := setAssoc st.toolCalls j { id := id, name := name, arguments := "" },
              toolCallArgs := setAssoc st.toolCallArgs j "" } := rfl
      rw [heq, deltaConcat_append, ih _ _ stopped i hwf' hi]
      simp [deltaConcat]
    | inputJsonDelta j p =>
      obtain ⟨hfrag, hwf'⟩ := hwf
      by_cases hp : p = ""
      · have heq : anProcess (.inputJsonDelta j p :: rest) st =
            anProcess rest st := by
          subst hp
          rfl
        rw [heq]
        exact ih _ started stopped i hwf' hi
      · have hj := hfrag hp
        have hji : ¬(j = i) := fun he => hj.2 (he ▸ hi)
        have heq : anProcess (.inputJsonDelta j p :: rest) st =
            [SEvent.toolCallDelta j p] ++ anProcess rest { st with
              toolCallArgs := setAssoc st.toolCallArgs j (((getAssoc st.toolCallArgs j).getD "") ++ p) } := by
          simp [anProcess, anStep, hp]
        rw [heq, deltaConcat_append, ih _ started stopped i hwf' hi]
        simp [deltaConcat, hji]
    | blockStop j =>
      have hstop : i ∈ stopped ++ [j] := List.mem_append_left _ hi
      rcases hlk : getAssoc st.toolCalls j with _ | tcj
      · have heq : anProcess (.blockStop j :: rest) st =
            anProcess rest st := by
          simp [anProcess, anStep, hlk]
        rw [heq]
        exact ih _ started _ i hwf hstop
      · have heq : anProcess (.blockStop j :: rest) st =
            [SEvent.toolCallEnd j { tcj with arguments := (getAssoc st.toolCallArgs j).getD "" }] ++
              anProcess rest st := by
          simp [anProcess, anStep, hlk]
        rw [heq, deltaConcat_append, ih _ started _ i hwf hstop]
        simp [deltaConcat]

/-- Every `ToolCallEnd` the Anthropic consumer emits on a well-formed
stream carries the concatenation of all fragments for its index. -/
theorem anProcess_ends (events : List AnWireEvent) :
    ∀ (st : AnState) (evs0 : List SEvent) (started stopped : List Nat),
      anWF started stopped events → anInv st started evs0 →
      ∀ i tc, SEvent.toolCallEnd i tc ∈ anProcess events st →
        tc.arguments = deltaConcat i (evs0 ++ anProcess events st) := by
  induction events with
  | nil =>
    intro st evs0 started stopped hwf hinv i tc hmem
    simp [anProcess, anDoneEvent] at hmem
  | cons e rest ih =>
    intro st evs0 started stopped hwf hinv i tc hmem
    cases e with
    | messageStop => simp [anProcess, anDoneEvent] at hmem
    | messageStart n =>
      have heq : anProcess (.messageStart n :: rest) st =
          anProcess rest { st with inputTokens := n } := rfl
      rw [heq] at hmem ⊢
      exact ih { st with inputTokens := n } evs0 started stopped hwf hinv
        i tc hmem
    | blockStartOther j =>
      have heq : anProcess (.blockStartOther j :: rest) st =
          anProcess rest st := rfl
      rw [heq] at hmem ⊢
      exact ih _ evs0 started stopped hwf hinv i tc hmem
    | messageDelta r o =>
      have heq : anProcess (.messageDelta r o :: rest) st =
          anProcess rest { st with
            stopReason := if r ≠ "" then r else st.stopReason,
            outputTokens := o.getD st.outputTokens } := rfl
      rw [heq] at hmem ⊢
      exact ih { st with
          stopReason := if r ≠ "" then r else st.stopReason,
          outputTokens := o.getD st.outputTokens }
        evs0 started stopped hwf hinv i tc hmem
    | textDelta j s =>
      have heq : anProcess (.textDelta j s :: rest) st =
          (if s ≠ "" then [SEvent.text s] else []) ++ anProcess rest st := rfl
      rw [heq] at hmem ⊢
      have hinv' : anInv st started
          (evs0 ++ (if s ≠ "" then [SEvent.text s] else [])) := by
        refine anInv_nondelta_events st started evs0 _ hinv (fun k => ?_)
        by_cases hs : s = "" <;> simp [hs, deltaConcat]
      rcases List.mem_append.mp hmem with hm | hm
      · by_cases hs : s = "" <;> simp [hs] at hm
      · rw [← List.append_assoc]
        exact ih _ _ started stopped hwf hinv' i tc hm
    | blockStartToolUse j id name =>
      obtain ⟨hnot, hwf'⟩ := hwf
      have heq : anProcess (.blockStartToolUse j id name :: rest) st =
          [SEvent.toolCallStart j { id := id, name := name, arguments := "" }] ++
            anProcess rest { st with
              toolCalls := setAssoc st.toolCalls j { id := id, name := name, arguments := "" },
              toolCallArgs := setAssoc st.toolCallArgs j "" } := rfl
      rw [heq] at hmem ⊢
      have hinv' := anInv_start st started evs0 j
        { id := id, name := name, arguments := "" } hinv hnot
      rcases List.mem_append.mp hmem with hm | hm
      · simp at hm
      · rw [← List.append_assoc]
        exact ih _ _ _ stopped hwf' hinv' i tc hm
    | inputJsonDelta j p =>
      obtain ⟨hfrag, hwf'⟩ := hwf
      by_cases hp : p = ""
      · have heq : anProcess (.inputJsonDelta j p :: rest) st =
            anProcess rest st := by
          subst hp; rfl
        rw [heq] at hmem ⊢
        exact ih _ evs0 started stopped hwf' hinv i tc hmem
      · have hj := hfrag hp
        have heq : anProcess (.inputJsonDelta j p :: rest) st =
            [SEvent.toolCallDelta j p] ++ anProcess rest { st with
              toolCallArgs := setAssoc st.toolCallArgs j (((getAssoc st.toolCallArgs j).getD "") ++ p) } := by
          simp [anProcess, anStep, hp]
        rw [heq] at hmem ⊢
        have hinv' := anInv_delta st started evs0 j p hinv hj.1
        rcases List.mem_append.mp hmem with hm | hm
        · simp at hm
        · rw [← List.append_assoc]
          exact ih _ _ started stopped hwf' hinv' i tc hm
    | blockStop j =>
      rcases hlk : getAssoc st.toolCalls j with _ | tcj
      · have heq : anProcess (.blockStop j :: rest) st =
            anProcess rest st := by
          simp [anProcess, anStep, hlk]
        rw [heq] at hmem ⊢
        exact ih _ evs0 started _ hwf hinv i tc hmem
      · obtain ⟨h1, h2, h3⟩ := hinv
        have hjst : j ∈ started := h1 (j, tcj) (getAssoc_mem hlk)
        have hargs := h2 j hjst
        have heq : anProcess (.blockStop j :: rest) st =
            [SEvent.toolCallEnd j { tcj with arguments := (getAssoc st.toolCallArgs j).getD "" }] ++
              anProcess rest st := by
          simp [anProcess, anStep, hlk]
        rw [heq] at hmem ⊢
        have hinv' : anInv st started
            (evs0 ++ [SEvent.toolCallEnd j { tcj with arguments := (getAssoc st.toolCallArgs j).getD "" }]) := by
          refine anInv_nondelta_events st started evs0 _ ⟨h1, h2, h3⟩
            (fun k => by simp [deltaConcat])
        rcases List.mem_append.mp hmem with hm | hm
        · have hm' := List.mem_singleton.mp hm
          obtain ⟨hij, htc⟩ := (SEvent.toolCallEnd.injEq _ _ _ _).mp hm'
          subst hij
          rw [htc]
          have hnd := anProcess_no_delta_of_stopped rest st started
            (stopped ++ [i]) i hwf
            (List.mem_append_right _ (List.mem_singleton_self i))
          rw [deltaConcat_append, deltaConcat_append, hnd]
          have hA : (getAssoc st.toolCallArgs i).getD "" =
              deltaConcat i evs0 := by rw [hargs]; rfl
          show (getAssoc st.toolCallArgs i).getD "" = _
          rw [hA]
          simp [deltaConcat]
        · rw [← List.append_assoc]
          exact ih _ _ started _ hwf hinv' i tc hm

theorem anCompleteStream_end_args (events : List AnWireEvent)
    (hwf : anWF [] [] events) (i : Nat) (tc : ToolCall)
    (hmem : SEvent.toolCallEnd i tc ∈ anCompleteStream events) :
    tc.arguments = deltaConcat i (anCompleteStream events) := by
  have hini : anInv AnState.initial [] [] := by
    refine ⟨?_, ?_, ?_⟩ <;> intro x hx <;>
      simp [AnState.initial, deltaConcat] at hx ⊢
  simpa using anProcess_ends events AnState.initial [] [] [] hwf hini i tc hmem

/-- **C7 (corrected: the round-trip requires the stream to be well-formed
— each tool call's id/name must arrive no later than its first argument
fragment, and, for Anthropic, a block must not restart or receive
fragments after its stop; both adapters reset the accumulated arguments on
`ToolCallStart`, so fragments delivered before the start are emitted as
`ToolCallDelta` events but dropped from the final payload).**  On such
streams, for every tool-call index, the concatenation in delivery order of
the `ArgumentDelta` fragments emitted as `ToolCallDelta` events for that
index equals the final `Arguments` payload carried by every `ToolCallEnd`
event for that index — for the OpenAI and the Anthropic adapter alike. -/
theorem stream_delta_concat_wellformed (chunks : List OAWireDelta)
    (events : List AnWireEvent) (hoa : oaWF [] chunks)
    (han : anWF [] [] events) :
    (∀ i tc, SEvent.toolCallEnd i tc ∈ oaCompleteStream chunks →
      tc.arguments = deltaConcat i (oaCompleteStream chunks)) ∧
    (∀ i tc, SEvent.toolCallEnd i tc ∈ anCompleteStream events →
      tc.arguments = deltaConcat i (anCompleteStream events)) :=
  ⟨fun i tc hm => oaCompleteStream_end_args chunks hoa i tc hm,
   fun i tc hm => anCompleteStream_end_args events han i tc hm⟩

/-- Witness for C7 (amended) on concrete two-fragment streams for both
adapters. -/
theorem stream_delta_concat_wellformed_witness :
    ({ id := "id1", name := "f", arguments := "abcd" } : ToolCall).arguments
        = deltaConcat 0 (oaCompleteStream
            [.toolCall ⟨0, "id1", "f", ""⟩,
             .toolCall ⟨0, "", "", "ab"⟩,
             .toolCall ⟨0, "", "", "cd"⟩]) ∧
    ({ id := "t1", name := "grep", arguments := "efgh" } : ToolCall).arguments
        = deltaConcat 1 (anCompleteStream
            [.messageStart 5,
             .blockStartToolUse 1 "t1" "grep",
             .inputJsonDelta 1 "ef",
             .inputJsonDelta 1 "gh",
             .blockStop 1,
             .messageStop]) := by
  have h := stream_delta_concat_wellformed
    [.toolCall ⟨0, "id1", "f", ""⟩,
     .toolCall ⟨0, "", "", "ab"⟩,
     .toolCall ⟨0, "", "", "cd"⟩]
    [.messageStart 5,
     .blockStartToolUse 1 "t1" "grep",
     .inputJsonDelta 1 "ef",
     .inputJsonDelta 1 "gh",
     .blockStop 1,
     .messageStop]
    (by simp [oaWF])
    (by simp [anWF])
  exact ⟨h.1 0 ⟨"id1", "f", "abcd"⟩ (by decide),
         h.2 1 ⟨"t1", "grep", "efgh"⟩ (by decide)⟩

/-- **C7 counterexample.**  On the raw claim (every streamed response),
the OpenAI adapter violates the round-trip: if an argument fragment
arrives before the chunk carrying the call's id/name, the adapter emits a
`ToolCallDelta` for it but then resets the accumulator on
`ToolCallStart`, so the `ToolCallEnd` payload (empty here) differs from
the concatenation of the emitted fragments (`"abc"`). -/
theorem stream_delta_concat_counterexample :
    ¬ ∀ (chunks : List OAWireDelta) (i : Nat) (tc : ToolCall),
        SEvent.toolCallEnd i tc ∈ oaCompleteStream chunks →
        tc.arguments = deltaConcat i (oaCompleteStream chunks) := by
  intro h
  have hc := h [.toolCall ⟨0, "", "", "abc"⟩, .toolCall ⟨0, "id1", "f", ""⟩]
    0 ⟨"id1", "f", ""⟩ (by decide)
  exact absurd hc (by decide)

end Looper
